import Mathlib

/-
Verification of the tiles-uploader repository.

This file gives a shallow embedding of the repository's core components and
proves (or refutes) the specification's claims about them:

- the coordinate key codec (`buildNodeKey` in `src/app/utils/treeUtils.ts`,
  `parseKeyToCoordinate` in `src/app/components/TileDeleter.tsx`);
- the hierarchical delete resolver (`filterHighestLevelKeys` in
  `src/app/components/TileDeleter.tsx`);
- the tile hierarchy index (`sortTreeData`, `buildTreeFromTiles`,
  `addTileToTree`, `removeTileFromTree`, `removeTilesFromTree` in
  `src/app/utils/treeUtils.ts`);
- the batch transfer queue (`processSingleUpload` / `processUploadQueue` in
  the uploader component);
- the HTTP route handlers (`POST` and `DELETE` in
  `src/app/tile/[...slug]/route.ts`, `DELETE` in `src/app/tile/route.ts`).

Strings are modelled by Lean `String`, JavaScript array mutation by pure
value-passing (the claims only concern the values the functions return), and
the stable JavaScript `Array.prototype.sort` by a stable insertion sort
(for a consistent comparator the ECMAScript standard determines the result
uniquely, and all comparators used on well-formed trees are consistent).
-/

namespace Tiles

/-- Tile record as carried by the tree utilities (`TileData` in
`src/app/utils/treeUtils.ts`). -/
structure TileData where
  id : String
  fileName : String
  z : String
  x : String
  y : String
deriving DecidableEq, Repr

/-- Splitting a character list at every occurrence of a separator character,
mirroring JavaScript `String.prototype.split` with a one-character separator
(empty pieces are kept, and the empty string splits to `[""]`). -/
def splitChars (sep : Char) : List Char → List (List Char)
  | [] => [[]]
  | c :: cs =>
    if c = sep then [] :: splitChars sep cs
    else
      match splitChars sep cs with
      | [] => [[c]]
      | h :: t => (c :: h) :: t

/-- Segments of a key: the JavaScript expression `key.split("_")`. -/
def keySegs (s : String) : List String :=
  (splitChars '_' s.data).map String.mk

/-- Numeric value of a list of decimal digit characters. -/
def digitsToNat (cs : List Char) : Nat :=
  cs.foldl (fun acc c => 10 * acc + (c.toNat - 48)) 0

/-- The JavaScript regular expression test `/^\d+$/.test(s)`: a nonempty
string of decimal digits. -/
def isDigitStr (s : String) : Bool :=
  !s.data.isEmpty && s.data.all Char.isDigit

/-- Value of the longest leading run of decimal digits, or `none` if there is
no leading digit. -/
def leadDigits (cs : List Char) : Option Nat :=
  let ds := cs.takeWhile Char.isDigit
  if ds.isEmpty then none else some (digitsToNat ds)

/-- JavaScript `parseInt` restricted to the inputs that occur in this
repository: an optional sign followed by decimal digits, ignoring trailing
garbage, `none` standing for `NaN`.  (Leading whitespace and the hexadecimal
auto-detection of full `parseInt` cannot arise for the underscore-separated
node keys being sorted.) -/
def jsParseIntChars : List Char → Option Int
  | [] => none
  | c :: rest =>
    if c = '-' then (leadDigits rest).map fun n => -(n : Int)
    else if c = '+' then (leadDigits rest).map fun n => (n : Int)
    else (leadDigits (c :: rest)).map fun n => (n : Int)

/-- JavaScript `parseInt` on a string (see `jsParseIntChars`). -/
def jsParseInt (s : String) : Option Int :=
  jsParseIntChars s.data

/-- A canonical decimal numeral: a digit string equal to the decimal
rendering of its value (so no leading zeros; this is the form in which the
data model says coordinates are rendered). -/
def canonicalNum (s : String) : Bool :=
  isDigitStr s && (Nat.repr (digitsToNat s.data) == s)

/-- Numeric value of a canonical numeral (0 for other strings). -/
def numVal (s : String) : Nat :=
  digitsToNat s.data

/-- Building a hierarchical node key (`buildNodeKey` in
`src/app/utils/treeUtils.ts`): three levels, `z_{z}`, `z_{z}_x_{x}` and
`z_{z}_x_{x}_y_{y}`. -/
def buildNodeKey (z : String) (x y : Option String) : String :=
  match x, y with
  | some x, some y => "z_" ++ z ++ "_x_" ++ x ++ "_y_" ++ y
  | some x, none => "z_" ++ z ++ "_x_" ++ x
  | _, _ => "z_" ++ z

/-- Coordinate selection produced by the delete resolver (the `Coordinate`
interface of `TileDeleter.tsx`): a `z` and optional `x`, `y` segments. -/
structure Coordinate where
  z : String
  x : Option String
  y : Option String
deriving DecidableEq, Repr

/-- Decoding of a node key (`parseKeyToCoordinate` in `TileDeleter.tsx`):
reject keys with fewer than two segments or whose first segment is not
`"z"`; take the second segment as `z`; take segments 3 and 5 as `x` and `y`
when they are announced by the `"x"` / `"y"` tag segments before them. -/
def parseKeyToCoordinate (key : String) : Option Coordinate :=
  let parts := keySegs key
  if parts.length < 2 ∨ parts[0]? ≠ some "z" then none
  else
    some
      { z := (parts[1]?).getD ""
        x := if parts.length ≥ 4 ∧ parts[2]? = some "x" then parts[3]? else none
        y := if parts.length ≥ 6 ∧ parts[4]? = some "y" then parts[5]? else none }

/-- JavaScript truthiness of an optional string field: `undefined` and the
empty string are falsy. -/
def truthyOpt : Option String → Bool
  | none => false
  | some s => !s.isEmpty

/-- The parent test of `filterHighestLevelKeys`: `other` is a parent of
`coord` when the `z` fields agree and either `other` has a falsy `x` while
`coord` has a truthy one, or the `x` fields agree (strict `===` on the
optional field) and `other` has a falsy `y` while `coord` has a truthy
one. -/
def isParentCoordJS (other coord : Coordinate) : Bool :=
  other.z == coord.z &&
    ((!truthyOpt other.x && truthyOpt coord.x) ||
     (other.x == coord.x && !truthyOpt other.y && truthyOpt coord.y))

/-- The decoded key list of `filterHighestLevelKeys`: every key of the
selection paired with its coordinate, dropping keys that do not decode. -/
def coordinatePairs (keys : List String) : List (String × Coordinate) :=
  keys.filterMap fun k => (parseKeyToCoordinate k).map fun c => (k, c)

/-- The redundancy test of `filterHighestLevelKeys`: some other entry of the
decoded selection (a different key) is a parent of this coordinate. -/
def hasParentIn (pairs : List (String × Coordinate)) (k : String)
    (c : Coordinate) : Bool :=
  pairs.any fun kc => kc.1 != k && isParentCoordJS kc.2 c

/-- The delete resolver (`filterHighestLevelKeys` in `TileDeleter.tsx`):
keep, in order, the decodable keys of the selection that have no parent in
the selection. -/
def filterHighestLevelKeys (keys : List String) : List String :=
  let pairs := coordinatePairs keys
  (pairs.filter fun kc => !hasParentIn pairs kc.1 kc.2).map Prod.fst

/-- Strict-ancestor relation as worded by the claim: same `z` with no `x`,
or same `z`, same `x` and no `y` — where "no x" means the field is absent
(`none`), not merely empty. -/
def claimStrictAncestor (other coord : Coordinate) : Bool :=
  other.z == coord.z &&
    ((other.x == (none : Option String) && coord.x != (none : Option String)) ||
     (other.x == coord.x && other.y == (none : Option String) &&
      coord.y != (none : Option String)))

/-- The resolver as worded by the claim (for comparison with the code):
keep the decodable keys for which no other key decodes to a
`claimStrictAncestor` of their coordinate. -/
def claimResolver (keys : List String) : List String :=
  let pairs := coordinatePairs keys
  (pairs.filter fun kc =>
      !(pairs.any fun other => other.1 != kc.1 && claimStrictAncestor other.2 kc.2)).map
    Prod.fst

/-- Strict-ancestor relation under the JavaScript truthiness reading, stated
as a proposition: a segment counts as present only when it is a nonempty
string. -/
def AncestorAmended (other coord : Coordinate) : Prop :=
  other.z = coord.z ∧
    ((truthyOpt other.x = false ∧ truthyOpt coord.x = true) ∨
     (other.x = coord.x ∧ truthyOpt other.y = false ∧ truthyOpt coord.y = true))

/-!
Batch transfer queue (`TilesUploader`): `processUploadQueue` drains the task
queue strictly sequentially, `processSingleUpload` handles one task.  A task
is modelled by its outcome — `some r` when the upload succeeds and produces
the record `r`, `none` when it fails (validation or transfer error).  The
observable effects are modelled as a list of events: calls to the progress
observer `onProgressChange`, the per-task callbacks, and the
batch-completion callback `onUploadSuccess`.
-/

/-- Observable event of the batch transfer queue. -/
inductive QEvent where
  | progress (isUploading : Bool) (percent : Nat)
  | taskSuccess (record : TileData)
  | taskFailure
  | batchComplete (records : List TileData)
deriving DecidableEq, Repr

/-- The percent computation of `processSingleUpload`:
`Math.round(uploaded / total * 100)` with the `total > 0` guard, on natural
numbers (`Math.round` rounds half up, i.e. `⌊(200s + t) / 2t⌋`). -/
def roundPct (total s : Nat) : Nat :=
  if total = 0 then 0 else (200 * s + total) / (2 * total)

/-- The drain loop of `processUploadQueue` running `processSingleUpload` on
each task in order.  For every task a progress update is published first
(percent from the records uploaded so far); a successful task then appends
its record, publishes the increased percent and fires its own success
callback; a failed task fires its failure callback and publishes nothing
further.  Returns the accumulated successful records and the emitted
events. -/
def drainLoop (total : Nat) (uploaded : List TileData) :
    List (Option TileData) → List TileData × List QEvent
  | [] => (uploaded, [])
  | none :: rest =>
    let r := drainLoop total uploaded rest
    (r.1, .progress true (roundPct total uploaded.length) :: .taskFailure :: r.2)
  | some rec :: rest =>
    let r := drainLoop total (uploaded ++ [rec]) rest
    (r.1, .progress true (roundPct total uploaded.length) ::
        .progress true (roundPct total (uploaded.length + 1)) ::
        .taskSuccess rec :: r.2)

/-- The whole of `processUploadQueue` for one batch: the guard returns at
once on an empty queue; otherwise an initial `(isUploading, 0)` update is
published, the queue is drained (the expected total is the queue length,
which equals `totalFilesRef` when the drain is triggered), the
batch-completion callback fires once when at least one task succeeded, and
both the normal path and the `finally` block publish `(not uploading,
100)`. -/
def processUploadQueue (tasks : List (Option TileData)) : List QEvent :=
  if tasks.isEmpty then []
  else
    let r := drainLoop tasks.length [] tasks
    .progress true 0 :: r.2 ++
      (if r.1.isEmpty then [] else [.batchComplete r.1]) ++
      [.progress false 100, .progress false 100]

/-- Arguments of the batch-completion callback among the events. -/
def batchCompletions (evs : List QEvent) : List (List TileData) :=
  evs.filterMap fun e =>
    match e with
    | .batchComplete l => some l
    | _ => none

/-- Percents of the published progress updates, in order. -/
def progressPercents (evs : List QEvent) : List Nat :=
  evs.filterMap fun e =>
    match e with
    | .progress _ p => some p
    | _ => none

/-- Records produced by the successful tasks of a batch, in completion
order. -/
def successRecords (tasks : List (Option TileData)) : List TileData :=
  tasks.filterMap id

/-- The progress-percent sequence published by the drain loop, written out
per task: one update before each task, a second one after each success. -/
def percSeq (total : Nat) (s : Nat) : List (Option TileData) → List Nat
  | [] => []
  | none :: rest => roundPct total s :: percSeq total s rest
  | some _ :: rest =>
    roundPct total s :: roundPct total (s + 1) :: percSeq total (s + 1) rest

/-- The full percent sequence of a nonempty batch: the initial 0, the
per-task updates, and the two final 100s (normal path and cleanup path). -/
def expectedPercents (tasks : List (Option TileData)) : List Nat :=
  if tasks.isEmpty then []
  else 0 :: percSeq tasks.length 0 tasks ++ [100, 100]

/-!
HTTP route handlers.  The relational catalog (Prisma `tile` table) is
modelled as a list of records, the MinIO bucket as the list of stored object
names.  `findMany`/`deleteMany` with a `where` clause become `List.filter`;
the claims under study compare record sets, which the ordering of the
returned lists does not affect.
-/

/-- Persisted tile record (the `TileRecord` of the route handlers; same
fields as `TileData`). -/
abbrev TileRecord := TileData

/-- State of the two external stores: the record catalog and the binary
object store. -/
structure StoreState where
  catalog : List TileRecord
  objects : List String
deriving DecidableEq, Repr

/-- Result of the `POST /tile/{z}/{x}/{y}` handler. -/
inductive PostResult where
  | badRequest
  | conflict
  | created (rec : TileRecord)
deriving DecidableEq, Repr

/-- The `POST /tile/{z}/{x}/{y}` handler of `src/app/tile/[...slug]/route.ts`:
validates the three path segments, rejects with 409 when a record with the
derived `fileName` already exists, otherwise uploads the payload and creates
the record (`newId` stands for the identifier the database generates). -/
def postTile (st : StoreState) (slug : List String) (newId : String) :
    PostResult × StoreState :=
  let z := (slug[0]?).getD ""
  let x := (slug[1]?).getD ""
  let y := (slug[2]?).getD ""
  if z = "" ∨ x = "" ∨ y = "" then (.badRequest, st)
  else if ¬ (isDigitStr z ∧ isDigitStr x ∧ isDigitStr y) then (.badRequest, st)
  else
    let fileName := z ++ "-" ++ x ++ "-" ++ y
    if (st.catalog.find? fun r => r.fileName = fileName).isSome then
      (.conflict, st)
    else
      let rec' : TileRecord := ⟨newId, fileName, z, x, y⟩
      let objects' :=
        if fileName ∈ st.objects then st.objects else st.objects ++ [fileName]
      (.created rec', ⟨st.catalog ++ [rec'], objects'⟩)

/-- Result of a delete handler. -/
inductive DelResult where
  | badRequest
  | notFound
  | ok (deletedTiles : List TileRecord)
deriving DecidableEq, Repr

/-- The Prisma `where` clause `{ z, x?, y? }` as a predicate on records
(`x` and `y` constraints present only when given). -/
def matchesWhere (z : String) (x y : Option String) (r : TileRecord) : Bool :=
  r.z == z &&
    (match x with
     | some x => r.x == x
     | none => true) &&
    (match y with
     | some y => r.y == y
     | none => true)

/-- Normalisation of an optional request field the way the handlers build
their `where` clause: the constraint is added only when the value is truthy
(so `undefined` and `""` both mean "no constraint"). -/
def normOpt (o : Option String) : Option String :=
  if truthyOpt o then o else none

/-- The `DELETE /tile/{z}[/{x}[/{y}]]` handler of
`src/app/tile/[...slug]/route.ts`: validates the segments, 404s when no
record matches, otherwise removes the binary payload of every matching
record from the object store and the records from the catalog. -/
def deleteTileSlug (st : StoreState) (slug : List String) :
    DelResult × StoreState :=
  let z := (slug[0]?).getD ""
  let x := slug[1]?
  let y := slug[2]?
  if z = "" then (.badRequest, st)
  else if ¬ isDigitStr z then (.badRequest, st)
  else if truthyOpt x ∧ ¬ isDigitStr (x.getD "") then (.badRequest, st)
  else if truthyOpt y ∧ ¬ isDigitStr (y.getD "") then (.badRequest, st)
  else
    let xw := normOpt x
    let yw := normOpt y
    let existing := st.catalog.filter (matchesWhere z xw yw)
    if existing.isEmpty then (.notFound, st)
    else
      let objects' :=
        st.objects.filter fun f => !existing.any fun t => t.fileName == f
      let catalog' := st.catalog.filter fun r => !matchesWhere z xw yw r
      (.ok existing, ⟨catalog', objects'⟩)

/-- One entry of the `coordinates` array of a batch delete request (every
field may be absent). -/
structure CoordReq where
  z : Option String
  x : Option String
  y : Option String
deriving DecidableEq, Repr

/-- Validation applied to each entry inside the batch delete loop: `z` must
be truthy, and a truthy `y` requires a truthy `x`. -/
def coordPasses (c : CoordReq) : Bool :=
  truthyOpt c.z && !(truthyOpt c.y && !truthyOpt c.x)

/-- The loop body of the batch `DELETE /tile` handler: entries are processed
in order, each deleting its matching records from the catalog at once;
an invalid entry aborts with a 400 — with the earlier deletions already
performed.  The object store is never touched.  Returns `none` on abort,
otherwise the concatenated deleted records. -/
def deleteBatchLoop (st : StoreState) (acc : List TileRecord) :
    List CoordReq → Option (List TileRecord) × StoreState
  | [] => (some acc, st)
  | c :: rest =>
    if ¬ coordPasses c then (none, st)
    else
      let z := (c.z).getD ""
      let xw := normOpt c.x
      let yw := normOpt c.y
      let found := st.catalog.filter (matchesWhere z xw yw)
      if found.isEmpty then deleteBatchLoop st acc rest
      else
        deleteBatchLoop ⟨st.catalog.filter fun r => !matchesWhere z xw yw r,
          st.objects⟩ (acc ++ found) rest

/-- The batch `DELETE /tile` handler of `src/app/tile/route.ts`: 400 on an
empty `coordinates` array or an invalid entry, 404 when nothing matched,
otherwise the concatenation of the per-entry deleted records. -/
def deleteTileBatch (st : StoreState) (coords : List CoordReq) :
    DelResult × StoreState :=
  if coords.isEmpty then (.badRequest, st)
  else
    match deleteBatchLoop st [] coords with
    | (none, st') => (.badRequest, st')
    | (some acc, st') =>
      if acc.isEmpty then (.notFound, st') else (.ok acc, st')

/-- The path segments of the single-delete endpoint for one coordinate
prefix (used to state the equivalence the specification asserts between the
batch form and the single form). -/
def coordSlugOf (c : CoordReq) : List String :=
  match c.z, c.x, c.y with
  | some z, some x, some y => [z, x, y]
  | some z, some x, none => [z, x]
  | some z, none, _ => [z]
  | none, _, _ => []

/-- Calling the single-prefix delete once per prefix, in order, unioning
(concatenating) the deleted-record lists — the reference semantics the
specification gives for the batch form. -/
def deleteSingles (st : StoreState) : List CoordReq → List TileRecord × StoreState
  | [] => ([], st)
  | c :: rest =>
    let r := deleteTileSlug st (coordSlugOf c)
    let recs :=
      match r.1 with
      | .ok l => l
      | _ => []
    let r' := deleteSingles r.2 rest
    (recs ++ r'.1, r'.2)

/-- A well-formed batch-delete entry: `z` present and numeric, `x` and `y`
absent or numeric, and `y` only together with `x` (the shape the delete
resolver produces). -/
def validCoordReq (c : CoordReq) : Bool :=
  c.z.isSome && isDigitStr (c.z.getD "") &&
    (c.x.isNone || isDigitStr (c.x.getD "")) &&
    (c.y.isNone || isDigitStr (c.y.getD "")) &&
    (c.y.isNone || c.x.isSome)

/-- Catalog left after unconditionally applying the deletions of a list of
batch entries (the filter is the identity for entries matching nothing, so
this equals what the loop performs). -/
def applyBatchDeletes (st : StoreState) (coords : List CoordReq) : StoreState :=
  ⟨coords.foldl
      (fun cat c =>
        cat.filter fun r => !matchesWhere ((c.z).getD "") (normOpt c.x) (normOpt c.y) r)
      st.catalog,
    st.objects⟩

/-!
Tile hierarchy index (`src/app/utils/treeUtils.ts`).  `TreeNode` mirrors the
TypeScript interface (optional fields as `Option`); in-place mutation of a
found node is modelled by replacing the first node with the same key, and
the stable `Array.prototype.sort` by a stable insertion sort.
-/

/-- Tree node of the hierarchy index (`TreeNode` in treeUtils.ts). -/
inductive TreeNode : Type where
  | mk (key : String) (title : String) (children : Option (List TreeNode))
      (isLeaf : Bool) (tileId : Option String) (fileName : Option String)
      (selectable : Option Bool)

/-- Key field of a node. -/
def TreeNode.key : TreeNode → String
  | .mk k _ _ _ _ _ _ => k

/-- Title field of a node (its own coordinate segment as display label). -/
def TreeNode.title : TreeNode → String
  | .mk _ t _ _ _ _ _ => t

/-- Children field of a node (`none` when the field is absent). -/
def TreeNode.children : TreeNode → Option (List TreeNode)
  | .mk _ _ c _ _ _ _ => c

/-- Leaf flag of a node. -/
def TreeNode.isLeaf : TreeNode → Bool
  | .mk _ _ _ l _ _ _ => l

/-- Tile identifier carried by a leaf. -/
def TreeNode.tileId : TreeNode → Option String
  | .mk _ _ _ _ i _ _ => i

/-- File name carried by a leaf. -/
def TreeNode.fileName : TreeNode → Option String
  | .mk _ _ _ _ _ f _ => f

/-- Selectable flag carried by a leaf. -/
def TreeNode.selectable : TreeNode → Option Bool
  | .mk _ _ _ _ _ _ s => s

/-- The node with its children array replaced (the effect of assigning to
`node.children`). -/
def TreeNode.withChildren : TreeNode → List TreeNode → TreeNode
  | .mk k t _ l i f s, cs => .mk k t (some cs) l i f s

/-- Children list of a node, the absent field reading as the empty list
(this is what `node.children?.find(...)` failing on `undefined` amounts
to). -/
def TreeNode.childrenD (t : TreeNode) : List TreeNode :=
  t.children.getD []

/-- A fresh `z`-level node as the code creates it. -/
def mkZNode (z : String) (cs : List TreeNode) : TreeNode :=
  .mk (buildNodeKey z none none) z (some cs) false none none none

/-- A fresh `x`-level node as the code creates it. -/
def mkXNode (z x : String) (cs : List TreeNode) : TreeNode :=
  .mk (buildNodeKey z (some x) none) x (some cs) false none none none

/-- A fresh leaf node as the code creates it from a tile record. -/
def mkYNode (t : TileData) : TreeNode :=
  .mk (buildNodeKey t.z (some t.x) (some t.y)) t.y none true (some t.id)
    (some t.fileName) (some false)

/-- JavaScript `array.find(node => node.key === k)`. -/
def findNode (k : String) (l : List TreeNode) : Option TreeNode :=
  l.find? fun n => n.key == k

/-- Replacing the first node with the given key — the pure rendering of
mutating the object `array.find` returned. -/
def replaceFirst (k : String) (n' : TreeNode) : List TreeNode → List TreeNode
  | [] => []
  | n :: l => if n.key == k then n' :: l else n :: replaceFirst k n' l

/-- The sort key of `sortTreeData` at segment index `i`:
`parseInt(String(node.key).split("_")[i])`, `none` for `NaN`. -/
def segIntAt (i : Nat) (t : TreeNode) : Option Int :=
  ((keySegs t.key)[i]?).bind jsParseInt

/-- Comparator of `sortTreeData` at segment index `i`; per the ECMAScript
`SortCompare` operation a `NaN` comparator result is treated as `+0`. -/
def cmpAt (i : Nat) (a b : TreeNode) : Int :=
  match segIntAt i a, segIntAt i b with
  | some m, some n => m - n
  | _, _ => 0

/-- The "a before-or-tied-with b" reading of the comparator. -/
def leAt (i : Nat) (a b : TreeNode) : Bool :=
  decide (cmpAt i a b ≤ 0)

/-- Stable insertion of an element into a list: it goes before the first
element it is tied with or precedes. -/
def orderedInsertBy (le : α → α → Bool) (a : α) : List α → List α
  | [] => [a]
  | b :: l => if le a b then a :: b :: l else b :: orderedInsertBy le a l

/-- Stable sort (insertion sort).  ECMAScript requires
`Array.prototype.sort` to be stable, which for a consistent comparator
determines the result uniquely; this models the sorts of
`sortTreeData`. -/
def stableSortBy (le : α → α → Bool) : List α → List α
  | [] => []
  | a :: l => orderedInsertBy le a (stableSortBy le l)

/-- One level of `sortTreeData`: sorting a sibling array by the numeric
value of segment `i` of each node's key. -/
def sortLevel (i : Nat) (l : List TreeNode) : List TreeNode :=
  stableSortBy (leAt i) l

/-- The `y`-level part of `sortTreeData`: sort an `x` node's children by
the `y` segment (index 5); a node without a children field is left alone. -/
def sortYLevel (xn : TreeNode) : TreeNode :=
  match xn.children with
  | none => xn
  | some ys => xn.withChildren (sortLevel 5 ys)

/-- The per-`z`-node part of `sortTreeData`: sort the children by the `x`
segment (index 3) and recurse into each of them. -/
def sortZNode (zn : TreeNode) : TreeNode :=
  match zn.children with
  | none => zn
  | some cs => zn.withChildren ((sortLevel 3 cs).map sortYLevel)

/-- The whole of `sortTreeData`: sort the root by the `z` segment (index 1),
each `z` node's children by the `x` segment (index 3), and each `x` node's
children by the `y` segment (index 5); nodes without a children field are
left alone. -/
def sortTreeData (l : List TreeNode) : List TreeNode :=
  (sortLevel 1 l).map sortZNode

/-- One step of `buildTreeFromTiles`' forEach over the tiles: look the `z`
node up in the insertion-ordered map (here: the accumulated root list),
creating it if needed, then the `x` node, then append the leaf
unconditionally. -/
def stepBuild (root : List TreeNode) (tile : TileData) : List TreeNode :=
  let zKey := buildNodeKey tile.z none none
  let xKey := buildNodeKey tile.z (some tile.x) none
  match findNode zKey root with
  | none => root ++ [mkZNode tile.z [mkXNode tile.z tile.x [mkYNode tile]]]
  | some zn =>
    let cs := zn.childrenD
    match findNode xKey cs with
    | none =>
      replaceFirst zKey
        (zn.withChildren (cs ++ [mkXNode tile.z tile.x [mkYNode tile]])) root
    | some xn =>
      replaceFirst zKey
        (zn.withChildren
          (replaceFirst xKey (xn.withChildren (xn.childrenD ++ [mkYNode tile])) cs))
        root

/-- The whole of `buildTreeFromTiles`: fold the tiles into an
insertion-ordered forest, then sort every level. -/
def buildTreeFromTiles (tiles : List TileData) : List TreeNode :=
  sortTreeData (tiles.foldl stepBuild [])

/-- The whole of `addTileToTree`: locate or create the `z` node, then the
`x` node, then append the leaf only when no leaf with its key exists; always
re-sort the result. -/
def addTileToTree (treeData : List TreeNode) (t : TileData) : List TreeNode :=
  let zKey := buildNodeKey t.z none none
  let xKey := buildNodeKey t.z (some t.x) none
  let yKey := buildNodeKey t.z (some t.x) (some t.y)
  match findNode zKey treeData with
  | none =>
    sortTreeData (treeData ++ [mkZNode t.z [mkXNode t.z t.x [mkYNode t]]])
  | some zn =>
    match findNode xKey zn.childrenD with
    | none =>
      sortTreeData
        (replaceFirst zKey
          (zn.withChildren (zn.childrenD ++ [mkXNode t.z t.x [mkYNode t]]))
          treeData)
    | some xn =>
      match findNode yKey xn.childrenD with
      | some _ => sortTreeData treeData
      | none =>
        sortTreeData
          (replaceFirst zKey
            (zn.withChildren
              (replaceFirst xKey (xn.withChildren (xn.childrenD ++ [mkYNode t]))
                zn.childrenD))
            treeData)

/-- The whole of `removeTileFromTree`: missing nodes make the removal a
no-op; otherwise the leaf is filtered out, an emptied `x` node is pruned,
and an emptied `z` node is pruned (in which case the code returns without
re-sorting). -/
def removeTileFromTree (treeData : List TreeNode) (t : TileData) : List TreeNode :=
  let zKey := buildNodeKey t.z none none
  let xKey := buildNodeKey t.z (some t.x) none
  let yKey := buildNodeKey t.z (some t.x) (some t.y)
  match findNode zKey treeData with
  | none => treeData
  | some zn =>
    match zn.children with
    | none => treeData
    | some zcs =>
      match findNode xKey zcs with
      | none => treeData
      | some xn =>
        match xn.children with
        | none => treeData
        | some ycs =>
          let ycs' := ycs.filter fun c => c.key != yKey
          if ycs'.isEmpty then
            let zcs' := zcs.filter fun c => c.key != xKey
            if zcs'.isEmpty then treeData.filter fun n => n.key != zKey
            else sortTreeData (replaceFirst zKey (zn.withChildren zcs') treeData)
          else
            sortTreeData
              (replaceFirst zKey
                (zn.withChildren (replaceFirst xKey (xn.withChildren ycs') zcs))
                treeData)

/-- The whole of `removeTilesFromTree`: remove the tiles one at a time. -/
def removeTilesFromTree (treeData : List TreeNode) (tiles : List TileData) :
    List TreeNode :=
  tiles.foldl removeTileFromTree treeData

/-- The record a leaf represents, given the titles on its path. -/
def leafRecord (zt xt : String) (yn : TreeNode) : TileData :=
  ⟨yn.tileId.getD "", yn.fileName.getD "", zt, xt, yn.title⟩

/-- Records represented by one `x` node under the given `z` title. -/
def xnRecords (zt : String) (xn : TreeNode) : List TileData :=
  xn.childrenD.map (leafRecord zt xn.title)

/-- Records represented by one `z` node. -/
def nodeRecords (zn : TreeNode) : List TileData :=
  zn.childrenD.flatMap (xnRecords zn.title)

/-- All records represented by a forest, reading titles down the paths. -/
def recordsOf (root : List TreeNode) : List TileData :=
  root.flatMap nodeRecords

/-- A valid tile record: coordinates rendered as canonical decimal numerals
(the data model's "non-negative integers rendered as decimal strings"). -/
def validTile (t : TileData) : Bool :=
  canonicalNum t.z && canonicalNum t.x && canonicalNum t.y

/-- The coordinate triple of a record. -/
def coordOf (t : TileData) : String × String × String :=
  (t.z, t.x, t.y)

/-- A valid record set: valid records with pairwise-distinct coordinates. -/
def validRecords (R : List TileData) : Prop :=
  (∀ r ∈ R, validTile r = true) ∧ (R.map coordOf).Nodup

/-- Strict order of two sibling nodes by the numeric value of their own
title segment. -/
def ltTitle (a b : TreeNode) : Prop :=
  numVal a.title < numVal b.title

/-- Well-formed leaf under path `(z, x)`: exactly the shape `mkYNode`
produces, with a canonical `y` title. -/
def LeafWF (z x : String) (t : TreeNode) : Prop :=
  t.key = buildNodeKey z (some x) (some t.title) ∧ canonicalNum t.title = true ∧
    t.children.isNone = true ∧ t.isLeaf = true ∧ t.tileId.isSome = true ∧
    t.fileName.isSome = true ∧ t.selectable = some false

/-- Shape of a well-formed `x` node under `z` (children possibly not yet
sorted). -/
def XShape (z : String) (t : TreeNode) : Prop :=
  t.key = buildNodeKey z (some t.title) none ∧ canonicalNum t.title = true ∧
    t.isLeaf = false ∧ t.tileId = none ∧ t.fileName = none ∧
    t.selectable = none ∧ t.children.isSome = true ∧ t.childrenD.isEmpty = false ∧
    ∀ yn ∈ t.childrenD, LeafWF z t.title yn

/-- Numeric title values of a sibling list are pairwise distinct. -/
def nodupTitles (l : List TreeNode) : Prop :=
  (l.map fun t => numVal t.title).Nodup

/-- Pre-well-formed `x` node: correct shape, distinct children. -/
def PreXWF (z : String) (t : TreeNode) : Prop :=
  XShape z t ∧ nodupTitles t.childrenD

/-- Well-formed `x` node: correct shape, strictly sorted children. -/
def XWF (z : String) (t : TreeNode) : Prop :=
  XShape z t ∧ t.childrenD.Pairwise ltTitle

/-- Shape of a well-formed `z` node over a given child predicate. -/
def ZShape (child : String → TreeNode → Prop) (t : TreeNode) : Prop :=
  t.key = buildNodeKey t.title none none ∧ canonicalNum t.title = true ∧
    t.isLeaf = false ∧ t.tileId = none ∧ t.fileName = none ∧
    t.selectable = none ∧ t.children.isSome = true ∧ t.childrenD.isEmpty = false ∧
    ∀ xn ∈ t.childrenD, child t.title xn

/-- Pre-well-formed `z` node. -/
def PreZWF (t : TreeNode) : Prop :=
  ZShape PreXWF t ∧ nodupTitles t.childrenD

/-- Well-formed `z` node. -/
def ZWF (t : TreeNode) : Prop :=
  ZShape XWF t ∧ t.childrenD.Pairwise ltTitle

/-- Pre-well-formed forest: correct shapes, distinct siblings, in arbitrary
order (the state of `buildTreeFromTiles`' accumulator before the final
sort). -/
def PreWF (root : List TreeNode) : Prop :=
  (∀ zn ∈ root, PreZWF zn) ∧ nodupTitles root

/-- Well-formed forest: correct shapes, strictly sorted at every level.
This is the invariant the index maintains for every tree it hands out. -/
def WF (root : List TreeNode) : Prop :=
  (∀ zn ∈ root, ZWF zn) ∧ root.Pairwise ltTitle

/-- Strict numeric order of two nodes by segment `i` of their keys (the
claim's "strictly ascending numeric order of their own coordinate
segment"). -/
def ltKeyAtB (i : Nat) (a b : TreeNode) : Bool :=
  match segIntAt i a, segIntAt i b with
  | some m, some n => decide (m < n)
  | _, _ => false

/-- Sibling list strictly ascending in the numeric value of key segment
`i`. -/
def strictSorted (i : Nat) (l : List TreeNode) : Prop :=
  l.Pairwise fun a b => ltKeyAtB i a b = true

/-- Claim C4 (i): every sibling level strictly ascending numerically. -/
def InvSorted (root : List TreeNode) : Prop :=
  strictSorted 1 root ∧
    ∀ zn ∈ root,
      strictSorted 3 zn.childrenD ∧
        ∀ xn ∈ zn.childrenD, strictSorted 5 xn.childrenD

/-- Claim C4 (ii): no non-leaf node with zero children. -/
def InvNoEmpty (root : List TreeNode) : Prop :=
  ∀ zn ∈ root,
    (zn.isLeaf = false → zn.childrenD.isEmpty = false) ∧
      ∀ xn ∈ zn.childrenD, xn.isLeaf = false → xn.childrenD.isEmpty = false

/-- The tree well-formedness invariant claim C4 states. -/
def Inv (root : List TreeNode) : Prop :=
  InvSorted root ∧ InvNoEmpty root

/-- Records reported by a delete result (`deletedTiles`, empty on
errors). -/
def recsOfDel (r : DelResult) : List TileRecord :=
  match r with
  | .ok l => l
  | _ => []

instance : DecidableRel ltTitle := fun a b => by
  unfold ltTitle; infer_instance

instance (z x : String) (t : TreeNode) : Decidable (LeafWF z x t) := by
  unfold LeafWF; infer_instance

instance (z : String) (t : TreeNode) : Decidable (XShape z t) := by
  unfold XShape; infer_instance

instance (l : List TreeNode) : Decidable (nodupTitles l) := by
  unfold nodupTitles; infer_instance

instance (z : String) (t : TreeNode) : Decidable (PreXWF z t) := by
  unfold PreXWF; infer_instance

instance (z : String) (t : TreeNode) : Decidable (XWF z t) := by
  unfold XWF; infer_instance

instance (t : TreeNode) : Decidable (ZShape PreXWF t) := by
  unfold ZShape; infer_instance

instance (t : TreeNode) : Decidable (ZShape XWF t) := by
  unfold ZShape; infer_instance

instance (t : TreeNode) : Decidable (PreZWF t) := by
  unfold PreZWF; infer_instance

instance (t : TreeNode) : Decidable (ZWF t) := by
  unfold ZWF; infer_instance

instance (root : List TreeNode) : Decidable (PreWF root) := by
  unfold PreWF; infer_instance

instance (root : List TreeNode) : Decidable (WF root) := by
  unfold WF; infer_instance

instance (i : Nat) (l : List TreeNode) : Decidable (strictSorted i l) := by
  unfold strictSorted; infer_instance

instance (root : List TreeNode) : Decidable (InvSorted root) := by
  unfold InvSorted; infer_instance

instance (root : List TreeNode) : Decidable (InvNoEmpty root) := by
  unfold InvNoEmpty; infer_instance

instance (root : List TreeNode) : Decidable (Inv root) := by
  unfold Inv; infer_instance

instance (R : List TileData) : Decidable (validRecords R) := by
  unfold validRecords; infer_instance

/-- The sibling comparator restated on titles (on well-formed nodes it
agrees with the key-segment comparator of `sortTreeData`). -/
def leT (a b : TreeNode) : Bool :=
  decide (numVal a.title ≤ numVal b.title)

/-- Two records address the same coordinate. -/
def sameCoord (q r : TileData) : Bool :=
  coordOf q == coordOf r

/-- Some record of the forest occupies the coordinate of `r`. -/
def hasCoord (root : List TreeNode) (r : TileData) : Prop :=
  ∃ q ∈ recordsOf root, coordOf q = coordOf r

instance (root : List TreeNode) (r : TileData) : Decidable (hasCoord root r) := by
  unfold hasCoord; infer_instance

/-!
Theorems.  First the two delete-resolver claims (C1, C7), then the batch
transfer queue (C2, C3), the route handlers (C8, C9, C10), and finally the
tile hierarchy index (C4, C5, C6).
-/

theorem mem_coordinatePairs {keys : List String} {k : String} {c : Coordinate} :
    (k, c) ∈ coordinatePairs keys ↔ k ∈ keys ∧ parseKeyToCoordinate k = some c := by
  unfold coordinatePairs
  rw [List.mem_filterMap]
  constructor
  · rintro ⟨a, ha, hf⟩
    rcases Option.map_eq_some'.mp hf with ⟨c', hc', heq⟩
    cases heq
    exact ⟨ha, hc'⟩
  · rintro ⟨hk, hc⟩
    exact ⟨k, hk, by rw [hc]; rfl⟩

theorem isParentCoordJS_iff {o c : Coordinate} :
    isParentCoordJS o c = true ↔ AncestorAmended o c := by
  unfold isParentCoordJS AncestorAmended
  simp [Bool.and_eq_true, Bool.or_eq_true, Bool.not_eq_true', and_assoc]

/-- Claim C1 (corrected).  The resolver keeps exactly the decodable keys of
the selection for which no other selected key decodes to a strict ancestor
coordinate, where a coordinate "has an x" (resp. "has a y") only when the
field is a nonempty string (JavaScript truthiness) — and in particular the
two examples of the claim: the nested selection collapses to `z_1`, and the
two disjoint `x` selections are both kept. -/
theorem C1_delete_minimization :
    (∀ (keys : List String) (k : String),
        k ∈ filterHighestLevelKeys keys ↔
          ∃ c, parseKeyToCoordinate k = some c ∧ k ∈ keys ∧
            ¬ ∃ k' c', k' ∈ keys ∧ k' ≠ k ∧ parseKeyToCoordinate k' = some c' ∧
                AncestorAmended c' c) ∧
    filterHighestLevelKeys ["z_1", "z_1_x_2", "z_1_x_2_y_3"] = ["z_1"] ∧
    filterHighestLevelKeys ["z_1_x_2", "z_1_x_5"] = ["z_1_x_2", "z_1_x_5"] := by
  refine ⟨fun keys k => ?_, by decide, by decide⟩
  unfold filterHighestLevelKeys
  simp only [List.mem_map, List.mem_filter]
  constructor
  · rintro ⟨⟨k₀, c⟩, ⟨hpair, hnp⟩, rfl⟩
    rw [mem_coordinatePairs] at hpair
    refine ⟨c, hpair.2, hpair.1, ?_⟩
    rintro ⟨k', c', hk', hne, hp', hanc⟩
    have hpar : hasParentIn (coordinatePairs keys) k₀ c = true := by
      unfold hasParentIn
      rw [List.any_eq_true]
      refine ⟨(k', c'), mem_coordinatePairs.mpr ⟨hk', hp'⟩, ?_⟩
      rw [Bool.and_eq_true, bne_iff_ne]
      exact ⟨hne, isParentCoordJS_iff.mpr hanc⟩
    rw [hpar] at hnp
    exact absurd hnp (by decide)
  · rintro ⟨c, hpk, hkk, hnp⟩
    refine ⟨(k, c), ⟨mem_coordinatePairs.mpr ⟨hkk, hpk⟩, ?_⟩, rfl⟩
    rw [Bool.not_eq_true']
    rw [← Bool.not_eq_true]
    intro hpar
    unfold hasParentIn at hpar
    rw [List.any_eq_true] at hpar
    rcases hpar with ⟨⟨k', c'⟩, hmem, hcond⟩
    rw [Bool.and_eq_true, bne_iff_ne] at hcond
    rw [mem_coordinatePairs] at hmem
    exact hnp ⟨k', c', hmem.1, hcond.1, hmem.2, isParentCoordJS_iff.mp hcond.2⟩

/-- Claim C1 counterexample: on the selection `["z_1", "z_1_x_"]` the code
keeps both keys (the second decodes to an empty `x`, which the truthiness
test treats as "no x"), while the claim's strict-prefix reading — under
which `{z:"1"}` is a strict prefix of `{z:"1", x:""}` — keeps only
`"z_1"`. -/
theorem C1_counterexample :
    filterHighestLevelKeys ["z_1", "z_1_x_"] = ["z_1", "z_1_x_"] ∧
    claimResolver ["z_1", "z_1_x_"] = ["z_1"] := by decide

/-- Claim C7 counterexample: `"z_abc"` has a non-numeric coordinate segment
and `"z_1_x_2_y_3_w"` has a segment count that fits no level, yet both
decode to a coordinate instead of being rejected. -/
theorem C7_counterexample :
    (parseKeyToCoordinate "z_abc").isSome = true ∧ isDigitStr "abc" = false ∧
    (parseKeyToCoordinate "z_1_x_2_y_3_w").isSome = true ∧
    (keySegs "z_1_x_2_y_3_w").length = 7 := by decide

theorem splitChars_sepFree (sep : Char) (cs : List Char)
    (h : ∀ c ∈ cs, c ≠ sep) : splitChars sep cs = [cs] := by
  induction cs with
  | nil => rfl
  | cons c cs ih =>
    have hc : c ≠ sep := h c (List.mem_cons_self c cs)
    have ih' := ih fun d hd => h d (List.mem_cons_of_mem c hd)
    simp [splitChars, hc, ih']

theorem splitChars_append_sep (sep : Char) (cs ds : List Char)
    (h : ∀ c ∈ cs, c ≠ sep) :
    splitChars sep (cs ++ sep :: ds) = cs :: splitChars sep ds := by
  induction cs with
  | nil => simp [splitChars]
  | cons c cs ih =>
    have hc : c ≠ sep := h c (List.mem_cons_self c cs)
    have ih' := ih fun d hd => h d (List.mem_cons_of_mem c hd)
    have hne : splitChars sep (cs ++ sep :: ds) ≠ [] := by
      rw [ih']; exact List.cons_ne_nil _ _
    simp only [List.cons_append, splitChars, if_neg hc]
    rw [show cs.append (sep :: ds) = cs ++ sep :: ds from rfl, ih']

theorem digit_ne_underscore {c : Char} (h : c.isDigit = true) : c ≠ '_' := by
  intro hc
  rw [hc] at h
  exact absurd h (by decide)

theorem isDigitStr_no_underscore {s : String} (h : isDigitStr s = true) :
    ∀ c ∈ s.data, c ≠ '_' := by
  intro c hc
  unfold isDigitStr at h
  rw [Bool.and_eq_true, List.all_eq_true] at h
  exact digit_ne_underscore (h.2 c hc)

theorem strMk_data (s : String) : String.mk s.data = s := rfl

theorem keySegs_level1 (z : String) (hz : ∀ c ∈ z.data, c ≠ '_') :
    keySegs ("z_" ++ z) = ["z", z] := by
  unfold keySegs
  have hdata : ("z_" ++ z).data = ['z'] ++ '_' :: z.data := by simp
  rw [hdata, splitChars_append_sep '_' ['z'] z.data (by decide),
    splitChars_sepFree '_' z.data hz]
  simp [strMk_data]

theorem keySegs_level2 (z x : String) (hz : ∀ c ∈ z.data, c ≠ '_')
    (hx : ∀ c ∈ x.data, c ≠ '_') :
    keySegs ("z_" ++ z ++ "_x_" ++ x) = ["z", z, "x", x] := by
  unfold keySegs
  have hdata : ("z_" ++ z ++ "_x_" ++ x).data =
      ['z'] ++ '_' :: (z.data ++ '_' :: (['x'] ++ '_' :: x.data)) := by simp
  rw [hdata, splitChars_append_sep '_' ['z'] _ (by decide),
    splitChars_append_sep '_' z.data _ hz,
    splitChars_append_sep '_' ['x'] _ (by decide),
    splitChars_sepFree '_' x.data hx]
  simp [strMk_data]

theorem keySegs_level3 (z x y : String) (hz : ∀ c ∈ z.data, c ≠ '_')
    (hx : ∀ c ∈ x.data, c ≠ '_') (hy : ∀ c ∈ y.data, c ≠ '_') :
    keySegs ("z_" ++ z ++ "_x_" ++ x ++ "_y_" ++ y) = ["z", z, "x", x, "y", y] := by
  unfold keySegs
  have hdata : ("z_" ++ z ++ "_x_" ++ x ++ "_y_" ++ y).data =
      ['z'] ++ '_' :: (z.data ++ '_' ::
        (['x'] ++ '_' :: (x.data ++ '_' :: (['y'] ++ '_' :: y.data)))) := by simp
  rw [hdata, splitChars_append_sep '_' ['z'] _ (by decide),
    splitChars_append_sep '_' z.data _ hz,
    splitChars_append_sep '_' ['x'] _ (by decide),
    splitChars_append_sep '_' x.data _ hx,
    splitChars_append_sep '_' ['y'] _ (by decide),
    splitChars_sepFree '_' y.data hy]
  simp [strMk_data]

/-- Claim C7 (corrected).  The decode operation rejects exactly the keys
with fewer than two underscore segments or whose first segment is not
`"z"`; on every key actually produced by `buildNodeKey` from digit segments
it returns the exact originating coordinate prefix, but structurally
malformed keys beyond that first check (non-numeric segments, unexpected
segment counts) are decoded leniently instead of being rejected. -/
theorem C7_decode_rejection :
    (∀ k : String, parseKeyToCoordinate k = none ↔
        ((keySegs k).length < 2 ∨ (keySegs k)[0]? ≠ some "z")) ∧
    (∀ (z : String) (x y : Option String),
        isDigitStr z = true →
        (∀ s, x = some s → isDigitStr s = true) →
        (∀ s, y = some s → isDigitStr s = true) →
        (y.isSome = true → x.isSome = true) →
        parseKeyToCoordinate (buildNodeKey z x y) = some ⟨z, x, y⟩) := by
  constructor
  · intro k
    by_cases h : (keySegs k).length < 2 ∨ (keySegs k)[0]? ≠ some "z"
    · simp [parseKeyToCoordinate, h]
    · simp [parseKeyToCoordinate, h]
  · intro z x y hz hx hy hxy
    cases x with
    | none =>
      cases y with
      | none =>
        have hsegs := keySegs_level1 z (isDigitStr_no_underscore hz)
        show parseKeyToCoordinate ("z_" ++ z) = _
        simp [parseKeyToCoordinate, hsegs]
      | some ys => exact absurd (hxy (by simp)) (by simp)
    | some xs =>
      cases y with
      | none =>
        have hsegs := keySegs_level2 z xs (isDigitStr_no_underscore hz)
          (isDigitStr_no_underscore (hx xs rfl))
        show parseKeyToCoordinate ("z_" ++ z ++ "_x_" ++ xs) = _
        simp [parseKeyToCoordinate, hsegs]
      | some ys =>
        have hsegs := keySegs_level3 z xs ys (isDigitStr_no_underscore hz)
          (isDigitStr_no_underscore (hx xs rfl))
          (isDigitStr_no_underscore (hy ys rfl))
        show parseKeyToCoordinate ("z_" ++ z ++ "_x_" ++ xs ++ "_y_" ++ ys) = _
        simp [parseKeyToCoordinate, hsegs]

/-- Witness for C7: a concrete level-3 key round-trips through the codec. -/
theorem C7_decode_rejection_witness :
    parseKeyToCoordinate (buildNodeKey "1" (some "2") (some "3")) =
      some ⟨"1", some "2", some "3"⟩ :=
  C7_decode_rejection.2 "1" (some "2") (some "3") (by decide)
    (fun s hs => by cases hs; decide) (fun s hs => by cases hs; decide)
    (fun _ => rfl)

theorem drainLoop_fst (total : Nat) (u : List TileData)
    (tasks : List (Option TileData)) :
    (drainLoop total u tasks).1 = u ++ successRecords tasks := by
  induction tasks generalizing u with
  | nil => simp [drainLoop, successRecords]
  | cons t rest ih =>
    cases t with
    | none => simp [drainLoop, successRecords, ih, List.filterMap_cons]
    | some r =>
      simp [drainLoop, successRecords, ih, List.filterMap_cons]

theorem drainLoop_completions (total : Nat) (u : List TileData)
    (tasks : List (Option TileData)) :
    batchCompletions (drainLoop total u tasks).2 = [] := by
  induction tasks generalizing u with
  | nil => simp [drainLoop, batchCompletions]
  | cons t rest ih =>
    cases t with
    | none => simpa [drainLoop, batchCompletions, List.filterMap_cons] using ih u
    | some r =>
      simpa [drainLoop, batchCompletions, List.filterMap_cons] using ih (u ++ [r])

theorem drainLoop_percents (total : Nat) (u : List TileData)
    (tasks : List (Option TileData)) :
    progressPercents (drainLoop total u tasks).2 = percSeq total u.length tasks := by
  induction tasks generalizing u with
  | nil => simp [drainLoop, percSeq, progressPercents]
  | cons t rest ih =>
    cases t with
    | none =>
      simpa [drainLoop, percSeq, progressPercents, List.filterMap_cons] using ih u
    | some r =>
      have := ih (u ++ [r])
      simp only [List.length_append, List.length_cons, List.length_nil] at this
      simpa [drainLoop, percSeq, progressPercents, List.filterMap_cons] using this

/-- Claim C2 (confirmed).  For every drained batch the batch-completion
callback receives exactly the records of the successful tasks, in
completion order, exactly once — and is not invoked at all when no task
succeeded. -/
theorem C2_batch_completion (tasks : List (Option TileData)) :
    batchCompletions (processUploadQueue tasks) =
      if successRecords tasks = [] then [] else [successRecords tasks] := by
  by_cases h : tasks.isEmpty = true
  · have : tasks = [] := by
      cases tasks with
      | nil => rfl
      | cons a l => simp [List.isEmpty] at h
    subst this
    simp [processUploadQueue, successRecords, batchCompletions]
  · have hfst : (drainLoop tasks.length [] tasks).1 = successRecords tasks := by
      simpa using drainLoop_fst tasks.length [] tasks
    have hcomp := drainLoop_completions tasks.length [] tasks
    unfold processUploadQueue
    rw [if_neg h]
    by_cases hs : successRecords tasks = []
    · simp only [batchCompletions, List.filterMap_cons, List.filterMap_append] at hcomp ⊢
      simp [hfst, hs, hcomp]
    · simp only [batchCompletions, List.filterMap_cons, List.filterMap_append] at hcomp ⊢
      simp [hfst, hs, hcomp, List.isEmpty_iff]

theorem roundPct_mono (total : Nat) {s s' : Nat} (h : s ≤ s') :
    roundPct total s ≤ roundPct total s' := by
  unfold roundPct
  by_cases ht : total = 0
  · simp [ht]
  · simp only [if_neg ht]
    exact Nat.div_le_div_right (by omega)

theorem roundPct_le_100 (total : Nat) {s : Nat} (h : s ≤ total) :
    roundPct total s ≤ 100 := by
  unfold roundPct
  by_cases ht : total = 0
  · simp [ht]
  · simp only [if_neg ht]
    have h2 : 0 < 2 * total := by omega
    have hlt : (200 * s + total) < 101 * (2 * total) := by omega
    have := (Nat.div_lt_iff_lt_mul h2).mpr (by omega : 200 * s + total < 101 * (2 * total))
    omega

theorem percChain (tasks : List (Option TileData)) :
    ∀ total s p : Nat, p ≤ roundPct total s →
      s + (successRecords tasks).length ≤ total →
      List.Chain (· ≤ ·) p (percSeq total s tasks ++ [100, 100]) := by
  induction tasks with
  | nil =>
    intro total s p hp hs
    have hs' : s ≤ total := by simpa [successRecords] using hs
    exact List.Chain.cons (le_trans hp (roundPct_le_100 total hs'))
      (List.Chain.cons le_rfl List.Chain.nil)
  | cons t rest ih =>
    intro total s p hp hs
    cases t with
    | none =>
      simp only [percSeq, List.cons_append]
      refine List.Chain.cons hp (ih total s (roundPct total s) le_rfl ?_)
      simpa [successRecords, List.filterMap_cons] using hs
    | some r =>
      simp only [percSeq, List.cons_append]
      refine List.Chain.cons hp (List.Chain.cons (roundPct_mono total (Nat.le_succ s)) ?_)
      refine ih total (s + 1) _ le_rfl ?_
      have : (successRecords (some r :: rest)).length = (successRecords rest).length + 1 := by
        simp [successRecords, List.filterMap_cons]
      omega

theorem queue_percents (tasks : List (Option TileData)) (h : tasks ≠ []) :
    progressPercents (processUploadQueue tasks) =
      0 :: percSeq tasks.length 0 tasks ++ [100, 100] := by
  have hne : ¬ tasks.isEmpty = true := by
    cases tasks with
    | nil => exact absurd rfl h
    | cons a l => simp [List.isEmpty]
  have hdp := drainLoop_percents tasks.length [] tasks
  unfold processUploadQueue
  rw [if_neg hne]
  by_cases hu : (drainLoop tasks.length [] tasks).1.isEmpty = true
  · simp only [progressPercents, List.filterMap_cons, List.filterMap_append] at hdp ⊢
    simp [hu, hdp]
  · simp only [progressPercents, List.filterMap_cons, List.filterMap_append] at hdp ⊢
    simp [hu, hdp]

/-- Claim C3 (corrected).  Within every nonempty batch, the published
percent sequence is: 0 at drain start, then for each task a pre-task update
of `round(successCount / total * 100)` and — only after a success — the
increased value; a failed task publishes nothing further; the sequence is
monotonically non-decreasing and ends at 100, which the completion path
publishes twice (normal path and cleanup path). -/
theorem C3_progress_reporting (tasks : List (Option TileData)) (h : tasks ≠ []) :
    progressPercents (processUploadQueue tasks) = expectedPercents tasks ∧
    (progressPercents (processUploadQueue tasks)).Pairwise (· ≤ ·) ∧
    (progressPercents (processUploadQueue tasks)).getLast? = some 100 := by
  have hne : ¬ tasks.isEmpty = true := by
    cases tasks with
    | nil => exact absurd rfl h
    | cons a l => simp [List.isEmpty]
  have hq := queue_percents tasks h
  have hexp : expectedPercents tasks = 0 :: percSeq tasks.length 0 tasks ++ [100, 100] := by
    unfold expectedPercents
    rw [if_neg hne]
  refine ⟨by rw [hq, hexp], ?_, ?_⟩
  · rw [hq]
    have hchain : List.Chain (· ≤ ·) 0 (percSeq tasks.length 0 tasks ++ [100, 100]) := by
      refine percChain tasks tasks.length 0 0 (Nat.zero_le _) ?_
      simpa [successRecords] using List.length_filterMap_le (@id (Option TileData)) tasks
    exact List.chain_iff_pairwise.mp hchain
  · rw [hq]
    have : (0 : Nat) :: percSeq tasks.length 0 tasks ++ [100, 100] =
        (0 :: percSeq tasks.length 0 tasks ++ [100]) ++ [100] := by simp
    rw [this, List.getLast?_concat]

/-- Witness for C3: a concrete two-task batch (one success, one failure). -/
theorem C3_progress_reporting_witness :
    progressPercents (processUploadQueue
        [some ⟨"id1", "1-2-3", "1", "2", "3"⟩, none]) =
      expectedPercents [some ⟨"id1", "1-2-3", "1", "2", "3"⟩, none] ∧
    (progressPercents (processUploadQueue
        [some ⟨"id1", "1-2-3", "1", "2", "3"⟩, none])).Pairwise (· ≤ ·) ∧
    (progressPercents (processUploadQueue
        [some ⟨"id1", "1-2-3", "1", "2", "3"⟩, none])).getLast? = some 100 :=
  C3_progress_reporting [some ⟨"id1", "1-2-3", "1", "2", "3"⟩, none] (by decide)

/-- Claim C3 counterexample: in a two-task batch whose second task fails,
the code publishes the percents `[0, 0, 50, 50, 100, 100]` — no
completed-count update after the failed task, and 100 published twice, not
exactly once. -/
theorem C3_counterexample :
    progressPercents (processUploadQueue
        [some ⟨"id9", "9-9-9", "9", "9", "9"⟩, none]) = [0, 0, 50, 50, 100, 100] ∧
    (progressPercents (processUploadQueue
        [some ⟨"id9", "9-9-9", "9", "9", "9"⟩, none])).count 100 = 2 := by decide

/-- Claim C8 (code bug).  Re-uploading to a coordinate whose record already
exists is answered with a 409 conflict and no state change — although the
repository's own README lists overwriting an uploaded tile as a supported
feature and the specification requires upsert semantics. -/
theorem C8_post_conflict :
    postTile ⟨[⟨"t1", "1-2-3", "1", "2", "3"⟩], ["1-2-3"]⟩ ["1", "2", "3"] "t2" =
      (.conflict, ⟨[⟨"t1", "1-2-3", "1", "2", "3"⟩], ["1-2-3"]⟩) := by decide

theorem batchLoop_abort (bad : CoordReq) (rest : List CoordReq)
    (hbad : coordPasses bad = false) :
    ∀ (pre : List CoordReq) (st : StoreState) (acc : List TileRecord),
      (∀ c ∈ pre, coordPasses c = true) →
      deleteBatchLoop st acc (pre ++ bad :: rest) =
        (none, applyBatchDeletes st pre) := by
  intro pre
  induction pre with
  | nil =>
    intro st acc hpre
    simp [deleteBatchLoop, hbad, applyBatchDeletes]
  | cons c pre ih =>
    intro st acc hpre
    have hc : coordPasses c = true := hpre c (by simp)
    simp only [List.cons_append, deleteBatchLoop, hc, List.append_eq]
    rw [if_neg (by simp)]
    by_cases hf :
        (st.catalog.filter
          (matchesWhere ((c.z).getD "") (normOpt c.x) (normOpt c.y))).isEmpty = true
    · rw [if_pos hf]
      rw [ih st acc fun d hd => hpre d (by simp [hd])]
      have hid : st.catalog.filter
          (fun r => !matchesWhere ((c.z).getD "") (normOpt c.x) (normOpt c.y) r) =
          st.catalog := by
        apply List.filter_eq_self.mpr
        intro r hr
        have hnil : st.catalog.filter
            (matchesWhere ((c.z).getD "") (normOpt c.x) (normOpt c.y)) = [] := by
          simpa [List.isEmpty_iff] using hf
        have := List.filter_eq_nil_iff.mp hnil r hr
        simp [this]
      unfold applyBatchDeletes
      simp only [List.foldl_cons, hid]
    · rw [if_neg hf]
      rw [ih _ _ fun d hd => hpre d (by simp [hd])]
      rfl

/-- Claim C10 (confirmed).  A batch delete whose coordinate list has valid
entries followed by an invalid one answers 400 — with the deletions of the
earlier valid entries already applied to the catalog and not reported in
the error result. -/
theorem C10_batch_not_atomic (st : StoreState) (pre : List CoordReq)
    (bad : CoordReq) (rest : List CoordReq)
    (hpre : ∀ c ∈ pre, coordPasses c = true)
    (hbad : coordPasses bad = false) :
    deleteTileBatch st (pre ++ bad :: rest) =
      (.badRequest, applyBatchDeletes st pre) := by
  unfold deleteTileBatch
  rw [if_neg (by simp [List.isEmpty_iff])]
  rw [batchLoop_abort bad rest hbad pre st [] hpre]

/-- Witness for C10: one matching valid entry, then an entry lacking `z`;
the record is gone from the catalog although the response is a 400 with no
deletion report. -/
theorem C10_batch_not_atomic_witness :
    (∀ c ∈ [CoordReq.mk (some "1") none none], coordPasses c = true) ∧
    coordPasses ⟨none, none, none⟩ = false ∧
    applyBatchDeletes ⟨[⟨"t1", "1-2-3", "1", "2", "3"⟩], []⟩
        [CoordReq.mk (some "1") none none] = ⟨[], []⟩ ∧
    deleteTileBatch ⟨[⟨"t1", "1-2-3", "1", "2", "3"⟩], []⟩
        ([CoordReq.mk (some "1") none none] ++ ⟨none, none, none⟩ :: []) =
      (.badRequest, applyBatchDeletes ⟨[⟨"t1", "1-2-3", "1", "2", "3"⟩], []⟩
        [CoordReq.mk (some "1") none none]) :=
  ⟨by decide, by decide, by decide,
    C10_batch_not_atomic ⟨[⟨"t1", "1-2-3", "1", "2", "3"⟩], []⟩
      [CoordReq.mk (some "1") none none] ⟨none, none, none⟩ []
      (by decide) (by decide)⟩

theorem isDigitStr_ne_null {s : String} (h : isDigitStr s = true) : ¬ s = "" := by
  intro he
  subst he
  simp [isDigitStr] at h

theorem isDigitStr_not_empty {s : String} (h : isDigitStr s = true) :
    s.isEmpty = false := by
  cases hE : s.isEmpty
  · rfl
  · exact absurd ((String.isEmpty_iff s).mp hE) (isDigitStr_ne_null h)

theorem singleSlug_of_valid (st : StoreState) (c : CoordReq)
    (hv : validCoordReq c = true) :
    deleteTileSlug st (coordSlugOf c) =
      (if (st.catalog.filter
            (matchesWhere ((c.z).getD "") (normOpt c.x) (normOpt c.y))).isEmpty then
        (.notFound, st)
      else
        (.ok (st.catalog.filter
            (matchesWhere ((c.z).getD "") (normOpt c.x) (normOpt c.y))),
          ⟨st.catalog.filter fun r =>
              !matchesWhere ((c.z).getD "") (normOpt c.x) (normOpt c.y) r,
            st.objects.filter fun f =>
              !(st.catalog.filter
                  (matchesWhere ((c.z).getD "") (normOpt c.x) (normOpt c.y))).any
                fun t => t.fileName == f⟩)) := by
  obtain ⟨z?, x?, y?⟩ := c
  unfold validCoordReq at hv
  simp only [Bool.and_eq_true, Bool.or_eq_true] at hv
  obtain ⟨⟨⟨⟨hzs, hzd⟩, hx⟩, hy⟩, hyx⟩ := hv
  cases z? with
  | none => simp at hzs
  | some z =>
    simp only [Option.getD_some] at hzd ⊢
    cases x? with
    | none =>
      cases y? with
      | some ys => simp at hyx
      | none =>
        simp only [coordSlugOf]
        unfold deleteTileSlug
        simp [isDigitStr_ne_null hzd, hzd, truthyOpt, normOpt]
    | some xs =>
      have hxd : isDigitStr xs = true := by simpa using hx
      cases y? with
      | none =>
        simp only [coordSlugOf]
        unfold deleteTileSlug
        simp [isDigitStr_ne_null hzd, hzd, hxd, truthyOpt, normOpt,
          isDigitStr_not_empty hxd]
      | some ys =>
        have hyd : isDigitStr ys = true := by simpa using hy
        simp only [coordSlugOf]
        unfold deleteTileSlug
        simp [isDigitStr_ne_null hzd, hzd, hxd, hyd, truthyOpt, normOpt,
          isDigitStr_not_empty hxd, isDigitStr_not_empty hyd]

theorem validCoordReq_passes {c : CoordReq} (hv : validCoordReq c = true) :
    coordPasses c = true := by
  obtain ⟨z?, x?, y?⟩ := c
  unfold validCoordReq at hv
  simp only [Bool.and_eq_true, Bool.or_eq_true] at hv
  obtain ⟨⟨⟨⟨hzs, hzd⟩, hx⟩, hy⟩, hyx⟩ := hv
  cases z? with
  | none => simp at hzs
  | some z =>
    simp only [Option.getD_some] at hzd
    unfold coordPasses
    cases x? with
    | none =>
      cases y? with
      | some ys => simp at hyx
      | none => simp [truthyOpt, isDigitStr_not_empty hzd]
    | some xs =>
      have hxd : isDigitStr xs = true := by simpa using hx
      cases y? with
      | none =>
        simp [truthyOpt, isDigitStr_not_empty hzd, isDigitStr_not_empty hxd]
      | some ys =>
        have hyd : isDigitStr ys = true := by simpa using hy
        simp [truthyOpt, isDigitStr_not_empty hzd, isDigitStr_not_empty hxd,
          isDigitStr_not_empty hyd]

theorem batch_singles_loop (coords : List CoordReq) :
    ∀ (st₁ st₂ : StoreState) (acc : List TileRecord),
      st₁.catalog = st₂.catalog →
      (∀ c ∈ coords, validCoordReq c = true) →
      (deleteBatchLoop st₁ acc coords).1 =
          some (acc ++ (deleteSingles st₂ coords).1) ∧
        (deleteBatchLoop st₁ acc coords).2.catalog =
          (deleteSingles st₂ coords).2.catalog ∧
        (deleteBatchLoop st₁ acc coords).2.objects = st₁.objects := by
  induction coords with
  | nil =>
    intro st₁ st₂ acc hcat hv
    simp [deleteBatchLoop, deleteSingles, hcat]
  | cons c rest ih =>
    intro st₁ st₂ acc hcat hv
    have hvc := hv c (by simp)
    have hsingle := singleSlug_of_valid st₂ c hvc
    simp only [deleteBatchLoop, deleteSingles]
    rw [if_neg (by simp [validCoordReq_passes hvc])]
    rw [hsingle, hcat]
    by_cases hf : (st₂.catalog.filter
        (matchesWhere ((c.z).getD "") (normOpt c.x) (normOpt c.y))).isEmpty = true
    · rw [if_pos hf, if_pos hf]
      have := ih st₁ st₂ acc hcat fun d hd => hv d (by simp [hd])
      simpa using this
    · rw [if_neg hf, if_neg hf]
      have := ih
        ⟨st₂.catalog.filter fun r =>
            !matchesWhere ((c.z).getD "") (normOpt c.x) (normOpt c.y) r,
          st₁.objects⟩
        ⟨st₂.catalog.filter fun r =>
            !matchesWhere ((c.z).getD "") (normOpt c.x) (normOpt c.y) r,
          st₂.objects.filter fun f =>
            !(st₂.catalog.filter
                (matchesWhere ((c.z).getD "") (normOpt c.x) (normOpt c.y))).any
              fun t => t.fileName == f⟩
        (acc ++ st₂.catalog.filter
          (matchesWhere ((c.z).getD "") (normOpt c.x) (normOpt c.y)))
        rfl (fun d hd => hv d (by simp [hd]))
      simpa [List.append_assoc] using this

theorem deleteSingles_objects (coords : List CoordReq) :
    ∀ st : StoreState, (∀ c ∈ coords, validCoordReq c = true) →
      (deleteSingles st coords).2.objects =
        st.objects.filter fun f =>
          !(deleteSingles st coords).1.any fun t => t.fileName == f := by
  induction coords with
  | nil =>
    intro st hv
    simp [deleteSingles]
  | cons c rest ih =>
    intro st hv
    have hvc := hv c (by simp)
    have hsingle := singleSlug_of_valid st c hvc
    simp only [deleteSingles]
    rw [hsingle]
    by_cases hf : (st.catalog.filter
        (matchesWhere ((c.z).getD "") (normOpt c.x) (normOpt c.y))).isEmpty = true
    · rw [if_pos hf]
      simpa using ih st fun d hd => hv d (by simp [hd])
    · rw [if_neg hf]
      have hrec := ih
        ⟨st.catalog.filter fun r =>
            !matchesWhere ((c.z).getD "") (normOpt c.x) (normOpt c.y) r,
          st.objects.filter fun f =>
            !(st.catalog.filter
                (matchesWhere ((c.z).getD "") (normOpt c.x) (normOpt c.y))).any
              fun t => t.fileName == f⟩
        (fun d hd => hv d (by simp [hd]))
      simp only at hrec ⊢
      rw [hrec, List.filter_filter]
      apply List.filter_congr
      intro f _
      simp [List.any_append, Bool.not_or, Bool.and_comm]

/-- Claim C9 counterexample: deleting the prefix `z=1` through the batch
endpoint leaves the stored payload in the object store, while the
semantically-equivalent single-prefix call removes it. -/
theorem C9_counterexample :
    (deleteTileBatch ⟨[⟨"t1", "1-2-3", "1", "2", "3"⟩], ["1-2-3"]⟩
        [CoordReq.mk (some "1") none none]).2.objects = ["1-2-3"] ∧
    (deleteSingles ⟨[⟨"t1", "1-2-3", "1", "2", "3"⟩], ["1-2-3"]⟩
        [CoordReq.mk (some "1") none none]).2.objects = [] ∧
    recsOfDel (deleteTileBatch ⟨[⟨"t1", "1-2-3", "1", "2", "3"⟩], ["1-2-3"]⟩
        [CoordReq.mk (some "1") none none]).1 =
      (deleteSingles ⟨[⟨"t1", "1-2-3", "1", "2", "3"⟩], ["1-2-3"]⟩
        [CoordReq.mk (some "1") none none]).1 := by decide

/-- Claim C9 (corrected).  For well-formed coordinate prefixes the batch
delete deletes exactly the records the sequential single-prefix calls
delete, and returns their union (concatenation) — but it leaves the object
store untouched, whereas the single-prefix form removes exactly the deleted
records' payloads. -/
theorem C9_batch_refinement (st : StoreState) (coords : List CoordReq)
    (hv : ∀ c ∈ coords, validCoordReq c = true) :
    recsOfDel (deleteTileBatch st coords).1 = (deleteSingles st coords).1 ∧
    (deleteTileBatch st coords).2.catalog = (deleteSingles st coords).2.catalog ∧
    (deleteTileBatch st coords).2.objects = st.objects ∧
    (deleteSingles st coords).2.objects =
      st.objects.filter fun f =>
        !(deleteSingles st coords).1.any fun t => t.fileName == f := by
  refine ?_
  cases coords with
  | nil =>
    simp [deleteTileBatch, deleteSingles, recsOfDel]
  | cons c rest =>
    have hl := batch_singles_loop (c :: rest) st st [] rfl hv
    have hp : deleteBatchLoop st [] (c :: rest) =
        (some ((deleteSingles st (c :: rest)).1),
          ⟨(deleteSingles st (c :: rest)).2.catalog, st.objects⟩) := by
      obtain ⟨h1, h2, h3⟩ := hl
      rcases hq : deleteBatchLoop st [] (c :: rest) with ⟨q1, ⟨qc, qo⟩⟩
      rw [hq] at h1 h2 h3
      simp only [List.nil_append] at h1 h2 h3
      simp [h1, h2, h3]
    have hbatch : deleteTileBatch st (c :: rest) =
        ((if (deleteSingles st (c :: rest)).1.isEmpty then DelResult.notFound
          else .ok ((deleteSingles st (c :: rest)).1)),
          ⟨(deleteSingles st (c :: rest)).2.catalog, st.objects⟩) := by
      unfold deleteTileBatch
      rw [if_neg (by simp), hp]
      by_cases he : (deleteSingles st (c :: rest)).1.isEmpty = true
      · simp [he]
      · simp [he]
    refine ⟨?_, ?_, ?_, deleteSingles_objects (c :: rest) st hv⟩
    · rw [hbatch]
      by_cases he : (deleteSingles st (c :: rest)).1.isEmpty = true
      · simp [he, recsOfDel, List.isEmpty_iff.mp he]
      · simp [he, recsOfDel]
    · rw [hbatch]
    · rw [hbatch]

/-- Witness for C9: deleting the prefix `z=1` through the batch endpoint on
a one-record store leaves the object store unchanged. -/
theorem C9_batch_refinement_witness :
    (∀ c ∈ [CoordReq.mk (some "1") none none], validCoordReq c = true) ∧
    (deleteTileBatch ⟨[⟨"t9", "1-0-0", "1", "0", "0"⟩], ["1-0-0"]⟩
        [CoordReq.mk (some "1") none none]).2.objects = ["1-0-0"] :=
  ⟨by decide,
    (C9_batch_refinement ⟨[⟨"t9", "1-0-0", "1", "0", "0"⟩], ["1-0-0"]⟩
      [CoordReq.mk (some "1") none none] (by decide)).2.2.1⟩

theorem orderedInsertBy_perm (le : α → α → Bool) (a : α) (l : List α) :
    (orderedInsertBy le a l).Perm (a :: l) := by
  induction l with
  | nil => exact List.Perm.refl _
  | cons b l ih =>
    unfold orderedInsertBy
    by_cases h : le a b = true
    · rw [if_pos h]
    · rw [if_neg h]
      exact (ih.cons b).trans (List.Perm.swap a b l)

theorem stableSortBy_perm (le : α → α → Bool) (l : List α) :
    (stableSortBy le l).Perm l := by
  induction l with
  | nil => exact List.Perm.refl _
  | cons a l ih =>
    unfold stableSortBy
    exact (orderedInsertBy_perm le a (stableSortBy le l)).trans (ih.cons a)

theorem orderedInsertBy_congr (le₁ le₂ : α → α → Bool) (a : α) (l : List α)
    (h : ∀ b ∈ l, le₁ a b = le₂ a b) :
    orderedInsertBy le₁ a l = orderedInsertBy le₂ a l := by
  induction l with
  | nil => rfl
  | cons b l ih =>
    unfold orderedInsertBy
    rw [h b (List.mem_cons_self b l)]
    by_cases hb : le₂ a b = true
    · rw [if_pos hb, if_pos hb]
    · rw [if_neg hb, if_neg hb, ih fun c hc => h c (List.mem_cons_of_mem b hc)]

theorem stableSortBy_congr (le₁ le₂ : α → α → Bool) (l : List α)
    (h : ∀ a ∈ l, ∀ b ∈ l, le₁ a b = le₂ a b) :
    stableSortBy le₁ l = stableSortBy le₂ l := by
  induction l with
  | nil => rfl
  | cons a l ih =>
    unfold stableSortBy
    rw [ih fun x hx y hy =>
      h x (List.mem_cons_of_mem a hx) y (List.mem_cons_of_mem a hy)]
    exact orderedInsertBy_congr le₁ le₂ a _ fun b hb =>
      h a (List.mem_cons_self a l) b
        (List.mem_cons_of_mem a ((stableSortBy_perm le₂ l).subset hb))

theorem pairwise_orderedInsertBy (le : α → α → Bool)
    (htrans : ∀ a b c, le a b = true → le b c = true → le a c = true)
    (htot : ∀ a b, le a b = true ∨ le b a = true) (a : α) (l : List α)
    (hl : l.Pairwise fun x y => le x y = true) :
    (orderedInsertBy le a l).Pairwise fun x y => le x y = true := by
  induction l with
  | nil => simp [orderedInsertBy]
  | cons b l ih =>
    rcases List.pairwise_cons.mp hl with ⟨hb, hl'⟩
    unfold orderedInsertBy
    by_cases h : le a b = true
    · rw [if_pos h]
      refine List.pairwise_cons.mpr ⟨?_, hl⟩
      intro c hc
      rcases List.mem_cons.mp hc with h' | h'
      · rw [h']; exact h
      · exact htrans a b c h (hb c h')
    · rw [if_neg h]
      have hba : le b a = true := (htot a b).resolve_left h
      refine List.pairwise_cons.mpr ⟨?_, ih hl'⟩
      intro c hc
      rcases List.mem_cons.mp ((orderedInsertBy_perm le a l).subset hc) with h' | h'
      · rw [h']; exact hba
      · exact hb c h'

theorem pairwise_stableSortBy (le : α → α → Bool)
    (htrans : ∀ a b c, le a b = true → le b c = true → le a c = true)
    (htot : ∀ a b, le a b = true ∨ le b a = true) (l : List α) :
    (stableSortBy le l).Pairwise fun x y => le x y = true := by
  induction l with
  | nil => simp [stableSortBy]
  | cons a l ih =>
    exact pairwise_orderedInsertBy le htrans htot a _ ih

theorem pairwise_lt_ext {α : Type} (f : α → Nat) :
    ∀ l₁ l₂ : List α, l₁.Pairwise (fun a b => f a < f b) →
      l₂.Pairwise (fun a b => f a < f b) → (∀ x, x ∈ l₁ ↔ x ∈ l₂) → l₁ = l₂ := by
  intro l₁
  induction l₁ with
  | nil =>
    intro l₂ _ _ h
    cases l₂ with
    | nil => rfl
    | cons b l₂ =>
      have := (h b).mpr (List.mem_cons_self b l₂)
      simp at this
  | cons a l₁ ih =>
    intro l₂ h₁ h₂ h
    cases l₂ with
    | nil =>
      have := (h a).mp (List.mem_cons_self a l₁)
      simp at this
    | cons b l₂ =>
      rcases List.pairwise_cons.mp h₁ with ⟨ha, h₁'⟩
      rcases List.pairwise_cons.mp h₂ with ⟨hb, h₂'⟩
      have hab : a = b := by
        have haIn : a ∈ b :: l₂ := (h a).mp (List.mem_cons_self a l₁)
        have hbIn : b ∈ a :: l₁ := (h b).mpr (List.mem_cons_self b l₂)
        rcases List.mem_cons.mp haIn with h' | h'
        · exact h'
        · rcases List.mem_cons.mp hbIn with h'' | h''
          · exact h''.symm
          · exact absurd (Nat.lt_trans (hb a h') (ha b h'')) (Nat.lt_irrefl _)
      subst hab
      congr 1
      refine ih l₂ h₁' h₂' fun x => ⟨fun hx => ?_, fun hx => ?_⟩
      · rcases List.mem_cons.mp ((h x).mp (List.mem_cons_of_mem a hx)) with h' | h'
        · rw [h'] at hx
          exact absurd (ha a hx) (Nat.lt_irrefl _)
        · exact h'
      · rcases List.mem_cons.mp ((h x).mpr (List.mem_cons_of_mem a hx)) with h' | h'
        · rw [h'] at hx
          exact absurd (hb a hx) (Nat.lt_irrefl _)
        · exact h'

theorem takeWhile_all {p : Char → Bool} {l : List Char}
    (h : ∀ c ∈ l, p c = true) : l.takeWhile p = l := by
  induction l with
  | nil => rfl
  | cons c cs ih =>
    rw [List.takeWhile_cons, if_pos (h c (List.mem_cons_self c cs))]
    rw [ih fun d hd => h d (List.mem_cons_of_mem c hd)]

theorem digit_ne_minus {c : Char} (h : c.isDigit = true) : ¬ c = '-' := by
  intro hc
  rw [hc] at h
  exact absurd h (by decide)

theorem digit_ne_plus {c : Char} (h : c.isDigit = true) : ¬ c = '+' := by
  intro hc
  rw [hc] at h
  exact absurd h (by decide)

theorem leadDigits_all {cs : List Char} (hne : cs ≠ [])
    (h : ∀ c ∈ cs, c.isDigit = true) : leadDigits cs = some (digitsToNat cs) := by
  unfold leadDigits
  rw [takeWhile_all h]
  cases cs with
  | nil => exact absurd rfl hne
  | cons c cs => simp

theorem jsParseInt_digitStr {s : String} (h : isDigitStr s = true) :
    jsParseInt s = some ((numVal s : Nat) : Int) := by
  have hh := h
  unfold isDigitStr at hh
  rw [Bool.and_eq_true, List.all_eq_true] at hh
  rw [show jsParseInt s = jsParseIntChars s.data from rfl]
  rcases hd : s.data with _ | ⟨c, cs⟩
  · rw [hd] at hh
    simp at hh
  · rw [hd] at hh
    have hc : c.isDigit = true := hh.2 c (List.mem_cons_self c cs)
    simp only [jsParseIntChars]
    rw [if_neg (digit_ne_minus hc), if_neg (digit_ne_plus hc),
      leadDigits_all (List.cons_ne_nil c cs) hh.2]
    simp [numVal, hd]

theorem canonicalNum_digit {s : String} (h : canonicalNum s = true) :
    isDigitStr s = true := by
  unfold canonicalNum at h
  rw [Bool.and_eq_true] at h
  exact h.1

theorem canonicalNum_repr {s : String} (h : canonicalNum s = true) :
    Nat.repr (numVal s) = s := by
  unfold canonicalNum at h
  rw [Bool.and_eq_true] at h
  exact beq_iff_eq.mp h.2

theorem canonicalNum_inj {s t : String} (hs : canonicalNum s = true)
    (ht : canonicalNum t = true) (h : numVal s = numVal t) : s = t := by
  rw [← canonicalNum_repr hs, ← canonicalNum_repr ht, h]

theorem segIntAt_zkey {t : TreeNode} (hk : t.key = buildNodeKey t.title none none)
    (hd : isDigitStr t.title = true) :
    segIntAt 1 t = some ((numVal t.title : Nat) : Int) := by
  unfold segIntAt
  rw [hk]
  simp only [buildNodeKey]
  rw [keySegs_level1 _ (isDigitStr_no_underscore hd)]
  simp [jsParseInt_digitStr hd]

theorem segIntAt_xkey (z : String) {t : TreeNode}
    (hk : t.key = buildNodeKey z (some t.title) none)
    (hz : isDigitStr z = true) (hd : isDigitStr t.title = true) :
    segIntAt 3 t = some ((numVal t.title : Nat) : Int) := by
  unfold segIntAt
  rw [hk]
  simp only [buildNodeKey]
  rw [keySegs_level2 z t.title (isDigitStr_no_underscore hz)
    (isDigitStr_no_underscore hd)]
  simp [jsParseInt_digitStr hd]

theorem segIntAt_ykey (z x : String) {t : TreeNode}
    (hk : t.key = buildNodeKey z (some x) (some t.title))
    (hz : isDigitStr z = true) (hx : isDigitStr x = true)
    (hd : isDigitStr t.title = true) :
    segIntAt 5 t = some ((numVal t.title : Nat) : Int) := by
  unfold segIntAt
  rw [hk]
  simp only [buildNodeKey]
  rw [keySegs_level3 z x t.title (isDigitStr_no_underscore hz)
    (isDigitStr_no_underscore hx) (isDigitStr_no_underscore hd)]
  simp [jsParseInt_digitStr hd]

theorem leAt_of_seg {i : Nat} {a b : TreeNode}
    (ha : segIntAt i a = some ((numVal a.title : Nat) : Int))
    (hb : segIntAt i b = some ((numVal b.title : Nat) : Int)) :
    leAt i a b = leT a b := by
  unfold leAt cmpAt leT
  rw [ha, hb]
  simp only [sub_nonpos]
  simp

theorem ltKeyAtB_of_seg {i : Nat} {a b : TreeNode}
    (ha : segIntAt i a = some ((numVal a.title : Nat) : Int))
    (hb : segIntAt i b = some ((numVal b.title : Nat) : Int)) :
    ltKeyAtB i a b = decide (numVal a.title < numVal b.title) := by
  unfold ltKeyAtB
  rw [ha, hb]
  simp

theorem leT_trans : ∀ a b c : TreeNode, leT a b = true → leT b c = true →
    leT a c = true := by
  intro a b c hab hbc
  unfold leT at *
  rw [decide_eq_true_eq] at *
  omega

theorem leT_total : ∀ a b : TreeNode, leT a b = true ∨ leT b a = true := by
  intro a b
  unfold leT
  rcases Nat.le_total (numVal a.title) (numVal b.title) with h | h
  · exact Or.inl (decide_eq_true h)
  · exact Or.inr (decide_eq_true h)

theorem withChildren_key (t : TreeNode) (cs : List TreeNode) :
    (t.withChildren cs).key = t.key := by cases t; rfl

theorem withChildren_title (t : TreeNode) (cs : List TreeNode) :
    (t.withChildren cs).title = t.title := by cases t; rfl

theorem withChildren_isLeaf (t : TreeNode) (cs : List TreeNode) :
    (t.withChildren cs).isLeaf = t.isLeaf := by cases t; rfl

theorem withChildren_tileId (t : TreeNode) (cs : List TreeNode) :
    (t.withChildren cs).tileId = t.tileId := by cases t; rfl

theorem withChildren_fileName (t : TreeNode) (cs : List TreeNode) :
    (t.withChildren cs).fileName = t.fileName := by cases t; rfl

theorem withChildren_selectable (t : TreeNode) (cs : List TreeNode) :
    (t.withChildren cs).selectable = t.selectable := by cases t; rfl

theorem withChildren_children (t : TreeNode) (cs : List TreeNode) :
    (t.withChildren cs).children = some cs := by cases t; rfl

theorem withChildren_childrenD (t : TreeNode) (cs : List TreeNode) :
    (t.withChildren cs).childrenD = cs := by
  unfold TreeNode.childrenD
  rw [withChildren_children]
  rfl

theorem children_eq_some_childrenD {t : TreeNode} (h : t.children.isSome = true) :
    t.children = some t.childrenD := by
  unfold TreeNode.childrenD
  cases hc : t.children with
  | none => rw [hc] at h; simp at h
  | some cs => rfl

theorem treeNode_ext {a b : TreeNode} (hk : a.key = b.key) (ht : a.title = b.title)
    (hc : a.children = b.children) (hl : a.isLeaf = b.isLeaf)
    (hi : a.tileId = b.tileId) (hf : a.fileName = b.fileName)
    (hs : a.selectable = b.selectable) : a = b := by
  cases a
  cases b
  simp_all [TreeNode.key, TreeNode.title, TreeNode.children, TreeNode.isLeaf,
    TreeNode.tileId, TreeNode.fileName, TreeNode.selectable]

theorem recordsOf_append (l₁ l₂ : List TreeNode) :
    recordsOf (l₁ ++ l₂) = recordsOf l₁ ++ recordsOf l₂ := by
  unfold recordsOf
  rw [List.flatMap_append]

theorem recordsOf_cons (n : TreeNode) (l : List TreeNode) :
    recordsOf (n :: l) = nodeRecords n ++ recordsOf l := by
  unfold recordsOf
  rw [List.flatMap_cons]

theorem mem_recordsOf {root : List TreeNode} {q : TileData} :
    q ∈ recordsOf root ↔
      ∃ zn ∈ root, ∃ xn ∈ zn.childrenD, ∃ yn ∈ xn.childrenD,
        q = leafRecord zn.title xn.title yn := by
  unfold recordsOf nodeRecords xnRecords
  simp only [List.mem_flatMap, List.mem_map]
  constructor
  · rintro ⟨zn, hzn, xn, hxn, yn, hyn, rfl⟩
    exact ⟨zn, hzn, xn, hxn, yn, hyn, rfl⟩
  · rintro ⟨zn, hzn, xn, hxn, yn, hyn, rfl⟩
    exact ⟨zn, hzn, xn, hxn, yn, hyn, rfl⟩

theorem findNode_some {k : String} {l : List TreeNode} {n : TreeNode}
    (h : findNode k l = some n) : n ∈ l ∧ n.key = k := by
  refine ⟨List.mem_of_find?_eq_some h, ?_⟩
  have := List.find?_some h
  simpa using this

theorem findNode_none {k : String} {l : List TreeNode}
    (h : findNode k l = none) : ∀ n ∈ l, n.key ≠ k := by
  intro n hn
  have := List.find?_eq_none.mp h n hn
  simpa using this

theorem findNode_decomp (k : String) (l : List TreeNode) (n : TreeNode)
    (h : findNode k l = some n) :
    ∃ pre suf, l = pre ++ n :: suf ∧ (∀ m ∈ pre, m.key ≠ k) ∧
      ∀ n', replaceFirst k n' l = pre ++ n' :: suf := by
  induction l with
  | nil => simp [findNode] at h
  | cons m l ih =>
    cases hmk : (m.key == k) with
    | true =>
      have hfind : findNode k (m :: l) = some m := by
        unfold findNode
        exact @List.find?_cons_of_pos TreeNode (fun n => n.key == k) m l hmk
      rw [hfind] at h
      cases h
      exact ⟨[], l, by simp, by simp, fun n' => by simp [replaceFirst, hmk]⟩
    | false =>
      have hfind : findNode k (m :: l) = findNode k l := by
        unfold findNode
        exact @List.find?_cons_of_neg TreeNode (fun n => n.key == k) m l
          (by simp [hmk])
      rw [hfind] at h
      rcases ih h with ⟨pre, suf, hl, hpre, hrep⟩
      refine ⟨m :: pre, suf, by rw [List.cons_append, ← hl], ?_, fun n' => ?_⟩
      · intro x hx
        rcases List.mem_cons.mp hx with h' | h'
        · rw [h']; simpa using hmk
        · exact hpre x h'
      · simp only [replaceFirst, hmk]
        rw [hrep n', List.cons_append]
        simp

theorem nodupTitles_of_pairwise {l : List TreeNode}
    (h : l.Pairwise ltTitle) : nodupTitles l := by
  unfold nodupTitles
  show (l.map fun t => numVal t.title).Pairwise (· ≠ ·)
  rw [List.pairwise_map]
  exact h.imp fun hab => Nat.ne_of_lt hab

theorem pairwise_ltTitle_of_le {l : List TreeNode}
    (hle : l.Pairwise fun a b => leT a b = true) (hnd : nodupTitles l) :
    l.Pairwise ltTitle := by
  unfold nodupTitles at hnd
  have hnd' : l.Pairwise fun a b => numVal a.title ≠ numVal b.title := by
    have : (l.map fun t => numVal t.title).Pairwise (· ≠ ·) := hnd
    rwa [List.pairwise_map] at this
  refine List.Pairwise.imp ?_ (hle.and hnd')
  rintro a b ⟨h1, h2⟩
  unfold leT at h1
  rw [decide_eq_true_eq] at h1
  unfold ltTitle
  omega

theorem sortLevel_eq_leT {i : Nat} {l : List TreeNode}
    (hgood : ∀ t ∈ l, segIntAt i t = some ((numVal t.title : Nat) : Int)) :
    sortLevel i l = stableSortBy leT l := by
  unfold sortLevel
  exact stableSortBy_congr _ _ l fun a ha b hb => leAt_of_seg (hgood a ha) (hgood b hb)

theorem sortLevel_perm {i : Nat} {l : List TreeNode}
    (hgood : ∀ t ∈ l, segIntAt i t = some ((numVal t.title : Nat) : Int)) :
    (sortLevel i l).Perm l := by
  rw [sortLevel_eq_leT hgood]
  exact stableSortBy_perm _ _

theorem sortLevel_pairwise {i : Nat} {l : List TreeNode}
    (hgood : ∀ t ∈ l, segIntAt i t = some ((numVal t.title : Nat) : Int))
    (hnd : nodupTitles l) : (sortLevel i l).Pairwise ltTitle := by
  rw [sortLevel_eq_leT hgood]
  refine pairwise_ltTitle_of_le (pairwise_stableSortBy leT leT_trans leT_total l) ?_
  unfold nodupTitles at hnd ⊢
  exact (((stableSortBy_perm leT l).map fun t => numVal t.title).nodup_iff).mpr hnd

theorem sortYLevel_title (xn : TreeNode) : (sortYLevel xn).title = xn.title := by
  unfold sortYLevel
  cases hc : xn.children with
  | none => rfl
  | some ys => rw [withChildren_title]

theorem sortZNode_title (zn : TreeNode) : (sortZNode zn).title = zn.title := by
  unfold sortZNode
  cases hc : zn.children with
  | none => rfl
  | some cs => rw [withChildren_title]

theorem ne_nil_of_perm_ne_nil {l₁ l₂ : List α} (h : l₁.Perm l₂) (hne : l₂ ≠ []) :
    l₁ ≠ [] := by
  intro hl
  rw [hl] at h
  exact hne h.symm.eq_nil

theorem isEmpty_false_iff {l : List α} : l.isEmpty = false ↔ l ≠ [] := by
  cases l <;> simp

theorem sortYLevel_XWF {z : String} {xn : TreeNode}
    (hz : isDigitStr z = true) (hx : PreXWF z xn) :
    XWF z (sortYLevel xn) ∧
      (xnRecords z (sortYLevel xn)).Perm (xnRecords z xn) := by
  obtain ⟨hshape, hnd⟩ := hx
  obtain ⟨hkey, hcan, hleaf, hti, hfn, hsel, hcs, hne, hall⟩ := hshape
  have hc : xn.children = some xn.childrenD := children_eq_some_childrenD hcs
  have hdef : sortYLevel xn = xn.withChildren (sortLevel 5 xn.childrenD) := by
    unfold sortYLevel
    rw [hc]
  have hgood : ∀ t ∈ xn.childrenD,
      segIntAt 5 t = some ((numVal t.title : Nat) : Int) := by
    intro t ht
    obtain ⟨hk', hcan', _⟩ := hall t ht
    exact segIntAt_ykey z xn.title hk' hz (canonicalNum_digit hcan)
      (canonicalNum_digit hcan')
  have hperm := sortLevel_perm hgood
  refine ⟨⟨?_, ?_⟩, ?_⟩
  · refine ⟨?_, ?_, ?_, ?_, ?_, ?_, ?_, ?_, ?_⟩
    · rw [hdef, withChildren_key, withChildren_title, hkey]
    · rw [hdef, withChildren_title]
      exact hcan
    · rw [hdef, withChildren_isLeaf]
      exact hleaf
    · rw [hdef, withChildren_tileId]
      exact hti
    · rw [hdef, withChildren_fileName]
      exact hfn
    · rw [hdef, withChildren_selectable]
      exact hsel
    · rw [hdef, withChildren_children]
      rfl
    · rw [hdef, withChildren_childrenD, isEmpty_false_iff]
      exact ne_nil_of_perm_ne_nil hperm (isEmpty_false_iff.mp hne)
    · intro yn hyn
      rw [hdef, withChildren_childrenD] at hyn
      rw [hdef, withChildren_title]
      exact hall yn (hperm.subset hyn)
  · rw [hdef, withChildren_childrenD]
    exact sortLevel_pairwise hgood hnd
  · unfold xnRecords
    rw [hdef, withChildren_childrenD, withChildren_title]
    exact hperm.map _

theorem sortZNode_ZWF {zn : TreeNode} (h : PreZWF zn) :
    ZWF (sortZNode zn) ∧ (sortZNode zn).key = zn.key ∧
      (nodeRecords (sortZNode zn)).Perm (nodeRecords zn) := by
  obtain ⟨hshape, hnd⟩ := h
  obtain ⟨hkey, hcan, hleaf, hti, hfn, hsel, hcs, hne, hall⟩ := hshape
  have hc : zn.children = some zn.childrenD := children_eq_some_childrenD hcs
  have hdef : sortZNode zn =
      zn.withChildren ((sortLevel 3 zn.childrenD).map sortYLevel) := by
    unfold sortZNode
    rw [hc]
  have hzd : isDigitStr zn.title = true := canonicalNum_digit hcan
  have hgood : ∀ t ∈ zn.childrenD,
      segIntAt 3 t = some ((numVal t.title : Nat) : Int) := by
    intro t ht
    obtain ⟨⟨hk', hcan', _⟩, _⟩ := hall t ht
    exact segIntAt_xkey zn.title hk' hzd (canonicalNum_digit hcan')
  have hperm := sortLevel_perm hgood
  have hpair := sortLevel_pairwise hgood hnd
  refine ⟨⟨?_, ?_⟩, ?_, ?_⟩
  · refine ⟨?_, ?_, ?_, ?_, ?_, ?_, ?_, ?_, ?_⟩
    · rw [hdef, withChildren_key, withChildren_title, hkey]
    · rw [hdef, withChildren_title]
      exact hcan
    · rw [hdef, withChildren_isLeaf]
      exact hleaf
    · rw [hdef, withChildren_tileId]
      exact hti
    · rw [hdef, withChildren_fileName]
      exact hfn
    · rw [hdef, withChildren_selectable]
      exact hsel
    · rw [hdef, withChildren_children]
      rfl
    · rw [hdef, withChildren_childrenD, isEmpty_false_iff]
      intro hnil
      rcases List.map_eq_nil_iff.mp hnil with h'
      exact (ne_nil_of_perm_ne_nil hperm (isEmpty_false_iff.mp hne)) h'
    · intro xn' hxn'
      rw [hdef, withChildren_childrenD] at hxn'
      rcases List.mem_map.mp hxn' with ⟨x0, hx0, rfl⟩
      rw [hdef, withChildren_title]
      exact (sortYLevel_XWF hzd (hall x0 (hperm.subset hx0))).1
  · rw [hdef, withChildren_childrenD, List.pairwise_map]
    refine hpair.imp ?_
    intro a b hab
    unfold ltTitle at hab ⊢
    rw [sortYLevel_title, sortYLevel_title]
    exact hab
  · rw [hdef, withChildren_key]
  · unfold nodeRecords
    rw [hdef, withChildren_childrenD, withChildren_title,
      List.flatMap_map sortYLevel (xnRecords zn.title) (sortLevel 3 zn.childrenD)]
    refine ((List.Perm.flatMap_left (sortLevel 3 zn.childrenD) ?_).trans
      (hperm.flatMap_right (xnRecords zn.title)))
    intro x0 hx0
    exact (sortYLevel_XWF hzd (hall x0 (hperm.subset hx0))).2

theorem sortTreeData_preWF {root : List TreeNode} (h : PreWF root) :
    WF (sortTreeData root) ∧ (recordsOf (sortTreeData root)).Perm (recordsOf root) := by
  obtain ⟨hall, hnd⟩ := h
  have hgood : ∀ t ∈ root, segIntAt 1 t = some ((numVal t.title : Nat) : Int) := by
    intro t ht
    obtain ⟨⟨hk', hcan', _⟩, _⟩ := hall t ht
    exact segIntAt_zkey hk' (canonicalNum_digit hcan')
  have hperm := sortLevel_perm hgood
  have hpair := sortLevel_pairwise hgood hnd
  unfold sortTreeData
  refine ⟨⟨?_, ?_⟩, ?_⟩
  · intro zn' hzn'
    rcases List.mem_map.mp hzn' with ⟨zn, hzn, rfl⟩
    exact (sortZNode_ZWF (hall zn (hperm.subset hzn))).1
  · rw [List.pairwise_map]
    refine hpair.imp ?_
    intro a b hab
    unfold ltTitle at hab ⊢
    rw [sortZNode_title, sortZNode_title]
    exact hab
  · unfold recordsOf
    rw [List.flatMap_map sortZNode nodeRecords (sortLevel 1 root)]
    refine ((List.Perm.flatMap_left (sortLevel 1 root) ?_).trans
      (hperm.flatMap_right nodeRecords))
    intro zn hzn
    exact (sortZNode_ZWF (hall zn (hperm.subset hzn))).2.2

theorem XWF_pre {z : String} {xn : TreeNode} (h : XWF z xn) : PreXWF z xn :=
  ⟨h.1, nodupTitles_of_pairwise h.2⟩

theorem ZWF_pre {zn : TreeNode} (h : ZWF zn) : PreZWF zn := by
  obtain ⟨⟨h1, h2, h3, h4, h5, h6, h7, h8, h9⟩, hpair⟩ := h
  exact ⟨⟨h1, h2, h3, h4, h5, h6, h7, h8, fun xn hxn => XWF_pre (h9 xn hxn)⟩,
    nodupTitles_of_pairwise hpair⟩

theorem WF_pre {root : List TreeNode} (h : WF root) : PreWF root :=
  ⟨fun zn hzn => ZWF_pre (h.1 zn hzn), nodupTitles_of_pairwise h.2⟩

theorem eq_of_mem_pairwise_titles {l : List TreeNode} (hp : l.Pairwise ltTitle)
    {a b : TreeNode} (ha : a ∈ l) (hb : b ∈ l) (ht : a.title = b.title) :
    a = b := by
  by_contra hne
  have hor : l.Pairwise fun a b => ltTitle a b ∨ ltTitle b a :=
    hp.imp fun h => Or.inl h
  have hsym : Symmetric fun a b : TreeNode => ltTitle a b ∨ ltTitle b a := by
    intro a b h
    exact h.symm
  have := hor.forall hsym ha hb hne
  unfold ltTitle at this
  rw [ht] at this
  omega

theorem pairwise_ltTitle_ext {l₁ l₂ : List TreeNode} (h₁ : l₁.Pairwise ltTitle)
    (h₂ : l₂.Pairwise ltTitle) (h : ∀ x, x ∈ l₁ ↔ x ∈ l₂) : l₁ = l₂ := by
  refine pairwise_lt_ext (fun t => numVal t.title) l₁ l₂ ?_ ?_ h
  · exact h₁.imp fun hab => hab
  · exact h₂.imp fun hab => hab

theorem isSome_getD_eq {α : Type} {o : Option α} (h : o.isSome = true) (d : α) :
    o = some (o.getD d) := by
  cases o with
  | none => simp at h
  | some a => rfl

theorem leaf_eq_of_record {z x : String} {yn yn' : TreeNode}
    (h : LeafWF z x yn) (h' : LeafWF z x yn')
    (hr : leafRecord z x yn = leafRecord z x yn') : yn = yn' := by
  obtain ⟨hk, hc, hch, hl, hti, hfn, hsel⟩ := h
  obtain ⟨hk', hc', hch', hl', hti', hfn', hsel'⟩ := h'
  unfold leafRecord at hr
  rw [TileData.mk.injEq] at hr
  obtain ⟨h1, h2, _, _, h5⟩ := hr
  refine treeNode_ext ?_ h5 ?_ ?_ ?_ ?_ ?_
  · rw [hk, hk', h5]
  · rw [Option.isNone_iff_eq_none.mp hch, Option.isNone_iff_eq_none.mp hch']
  · rw [hl, hl']
  · rw [isSome_getD_eq hti "", isSome_getD_eq hti' "", h1]
  · rw [isSome_getD_eq hfn "", isSome_getD_eq hfn' "", h2]
  · rw [hsel, hsel']

theorem record_path {t : List TreeNode} {q : TileData} (hq : q ∈ recordsOf t) :
    ∃ zn ∈ t, ∃ xn ∈ zn.childrenD, ∃ yn ∈ xn.childrenD,
      q = leafRecord zn.title xn.title yn ∧ zn.title = q.z ∧
        xn.title = q.x ∧ yn.title = q.y := by
  obtain ⟨zn, hzn, xn, hxn, yn, hyn, hrec⟩ := mem_recordsOf.mp hq
  subst hrec
  exact ⟨zn, hzn, xn, hxn, yn, hyn, rfl, rfl, rfl, rfl⟩

theorem ys_subset {t₁ t₂ : List TreeNode} {zn₁ zn₂ xn₁ xn₂ : TreeNode}
    (h₁ : WF t₁) (h₂ : WF t₂)
    (hzn₁ : zn₁ ∈ t₁) (hzn₂ : zn₂ ∈ t₂)
    (hxn₁ : xn₁ ∈ zn₁.childrenD) (hxn₂ : xn₂ ∈ zn₂.childrenD)
    (hzt : zn₁.title = zn₂.title) (hxt : xn₁.title = xn₂.title)
    (hq : ∀ q, q ∈ recordsOf t₁ → q ∈ recordsOf t₂) :
    ∀ yn ∈ xn₁.childrenD, yn ∈ xn₂.childrenD := by
  intro yn hyn
  have hr₁ : leafRecord zn₁.title xn₁.title yn ∈ recordsOf t₁ :=
    mem_recordsOf.mpr ⟨zn₁, hzn₁, xn₁, hxn₁, yn, hyn, rfl⟩
  obtain ⟨zn', hzn', xn', hxn', yn', hyn', hrec, hz', hx', hy'⟩ :=
    record_path (hq _ hr₁)
  have hzz : zn' = zn₂ := by
    refine eq_of_mem_pairwise_titles h₂.2 hzn' hzn₂ ?_
    rw [hz']
    show (leafRecord zn₁.title xn₁.title yn).z = zn₂.title
    rw [← hzt]
    rfl
  subst hzz
  have hzwf₂ := h₂.1 zn' hzn₂
  have hxx : xn' = xn₂ := by
    refine eq_of_mem_pairwise_titles hzwf₂.2 hxn' hxn₂ ?_
    rw [hx']
    show (leafRecord zn₁.title xn₁.title yn).x = xn₂.title
    rw [← hxt]
    rfl
  subst hxx
  have hy₂wf := (hzwf₂.1.2.2.2.2.2.2.2.2 xn' hxn').1.2.2.2.2.2.2.2.2 yn' hyn'
  -- the two leaves carry the same record under the same (z, x) path
  have hzwf₁ := h₁.1 zn₁ hzn₁
  have hy₁wf := (hzwf₁.1.2.2.2.2.2.2.2.2 xn₁ hxn₁).1.2.2.2.2.2.2.2.2 yn hyn
  have hy₁wf' : LeafWF zn'.title xn'.title yn := by
    rw [← hzt, ← hxt]
    exact hy₁wf
  have hrec' : leafRecord zn'.title xn'.title yn =
      leafRecord zn'.title xn'.title yn' := by
    rw [← hrec]
    show leafRecord zn'.title xn'.title yn = leafRecord zn₁.title xn₁.title yn
    rw [← hzt, ← hxt]
  rw [leaf_eq_of_record hy₁wf' hy₂wf hrec']
  exact hyn'

theorem xs_subset {t₁ t₂ : List TreeNode} {zn₁ zn₂ : TreeNode}
    (h₁ : WF t₁) (h₂ : WF t₂)
    (hzn₁ : zn₁ ∈ t₁) (hzn₂ : zn₂ ∈ t₂)
    (hzt : zn₁.title = zn₂.title)
    (hq : ∀ q, q ∈ recordsOf t₁ ↔ q ∈ recordsOf t₂) :
    ∀ xn ∈ zn₁.childrenD, xn ∈ zn₂.childrenD := by
  intro xn hxn
  have hzwf₁ := h₁.1 zn₁ hzn₁
  have hxwf₁ := hzwf₁.1.2.2.2.2.2.2.2.2 xn hxn
  obtain ⟨yn, hyn⟩ := List.exists_mem_of_ne_nil _
    (isEmpty_false_iff.mp hxwf₁.1.2.2.2.2.2.2.2.1)
  have hr₁ : leafRecord zn₁.title xn.title yn ∈ recordsOf t₁ :=
    mem_recordsOf.mpr ⟨zn₁, hzn₁, xn, hxn, yn, hyn, rfl⟩
  obtain ⟨zn', hzn', xn', hxn', yn', hyn', hrec, hz', hx', hy'⟩ :=
    record_path ((hq _).mp hr₁)
  have hzz : zn' = zn₂ := by
    refine eq_of_mem_pairwise_titles h₂.2 hzn' hzn₂ ?_
    rw [hz']
    show (leafRecord zn₁.title xn.title yn).z = zn₂.title
    rw [← hzt]
    rfl
  subst hzz
  have hxt : xn.title = xn'.title := by
    rw [hx']
    rfl
  have hzwf₂ := h₂.1 zn' hzn₂
  have hxwf₂ := hzwf₂.1.2.2.2.2.2.2.2.2 xn' hxn'
  -- the children lists of xn and xn' coincide
  have hys : xn.childrenD = xn'.childrenD := by
    refine pairwise_ltTitle_ext hxwf₁.2 hxwf₂.2 ?_
    intro y0
    constructor
    · exact fun hy0 => ys_subset h₁ h₂ hzn₁ hzn₂ hxn hxn' hzt hxt
        (fun q => (hq q).mp) y0 hy0
    · exact fun hy0 => ys_subset h₂ h₁ hzn₂ hzn₁ hxn' hxn hzt.symm hxt.symm
        (fun q => (hq q).mpr) y0 hy0
  have : xn = xn' := by
    refine treeNode_ext ?_ hxt ?_ ?_ ?_ ?_ ?_
    · rw [hxwf₁.1.1, hxwf₂.1.1, hxt, hzt]
    · rw [children_eq_some_childrenD hxwf₁.1.2.2.2.2.2.2.1,
        children_eq_some_childrenD hxwf₂.1.2.2.2.2.2.2.1, hys]
    · rw [hxwf₁.1.2.2.1, hxwf₂.1.2.2.1]
    · rw [hxwf₁.1.2.2.2.1, hxwf₂.1.2.2.2.1]
    · rw [hxwf₁.1.2.2.2.2.1, hxwf₂.1.2.2.2.2.1]
    · rw [hxwf₁.1.2.2.2.2.2.1, hxwf₂.1.2.2.2.2.2.1]
  rw [this]
  exact hxn'

theorem wf_node_mem {t₁ t₂ : List TreeNode} (h₁ : WF t₁) (h₂ : WF t₂)
    (hq : ∀ q, q ∈ recordsOf t₁ ↔ q ∈ recordsOf t₂) :
    ∀ zn ∈ t₁, zn ∈ t₂ := by
  intro zn hzn
  have hzwf₁ := h₁.1 zn hzn
  obtain ⟨xn0, hxn0⟩ := List.exists_mem_of_ne_nil _
    (isEmpty_false_iff.mp hzwf₁.1.2.2.2.2.2.2.2.1)
  have hxwf0 := hzwf₁.1.2.2.2.2.2.2.2.2 xn0 hxn0
  obtain ⟨yn0, hyn0⟩ := List.exists_mem_of_ne_nil _
    (isEmpty_false_iff.mp hxwf0.1.2.2.2.2.2.2.2.1)
  have hr₁ : leafRecord zn.title xn0.title yn0 ∈ recordsOf t₁ :=
    mem_recordsOf.mpr ⟨zn, hzn, xn0, hxn0, yn0, hyn0, rfl⟩
  obtain ⟨zn', hzn', xn', hxn', yn', hyn', hrec, hz', hx', hy'⟩ :=
    record_path ((hq _).mp hr₁)
  have hzt : zn.title = zn'.title := by
    rw [hz']
    rfl
  have hzwf₂ := h₂.1 zn' hzn'
  have hcs : zn.childrenD = zn'.childrenD := by
    refine pairwise_ltTitle_ext hzwf₁.2 hzwf₂.2 ?_
    intro x0
    constructor
    · exact fun hx0 => xs_subset h₁ h₂ hzn hzn' hzt hq x0 hx0
    · exact fun hx0 => xs_subset h₂ h₁ hzn' hzn hzt.symm
        (fun q => (hq q).symm) x0 hx0
  have : zn = zn' := by
    refine treeNode_ext ?_ hzt ?_ ?_ ?_ ?_ ?_
    · rw [hzwf₁.1.1, hzwf₂.1.1, hzt]
    · rw [children_eq_some_childrenD hzwf₁.1.2.2.2.2.2.2.1,
        children_eq_some_childrenD hzwf₂.1.2.2.2.2.2.2.1, hcs]
    · rw [hzwf₁.1.2.2.1, hzwf₂.1.2.2.1]
    · rw [hzwf₁.1.2.2.2.1, hzwf₂.1.2.2.2.1]
    · rw [hzwf₁.1.2.2.2.2.1, hzwf₂.1.2.2.2.2.1]
    · rw [hzwf₁.1.2.2.2.2.2.1, hzwf₂.1.2.2.2.2.2.1]
  rw [this]
  exact hzn'

theorem wf_ext {t₁ t₂ : List TreeNode} (h₁ : WF t₁) (h₂ : WF t₂)
    (hq : ∀ q, q ∈ recordsOf t₁ ↔ q ∈ recordsOf t₂) : t₁ = t₂ := by
  refine pairwise_ltTitle_ext h₁.2 h₂.2 ?_
  intro zn
  exact ⟨fun h => wf_node_mem h₁ h₂ hq zn h,
    fun h => wf_node_mem h₂ h₁ (fun q => (hq q).symm) zn h⟩

theorem string_data_inj {a b : String} (h : a.data = b.data) : a = b := by
  cases a
  cases b
  exact congrArg String.mk h

theorem string_append_left_cancel {s a b : String} (h : s ++ a = s ++ b) :
    a = b := by
  have hd := congrArg String.data h
  simp only [String.data_append] at hd
  exact string_data_inj (List.append_cancel_left hd)

theorem find_pref_some {l : List TreeNode} {p : String}
    (hkeys : ∀ n ∈ l, n.key = p ++ n.title) {s : String} {n : TreeNode}
    (h : findNode (p ++ s) l = some n) : n ∈ l ∧ n.title = s := by
  obtain ⟨hmem, hkey⟩ := findNode_some h
  refine ⟨hmem, ?_⟩
  have : p ++ n.title = p ++ s := by rw [← hkeys n hmem, hkey]
  exact string_append_left_cancel this

theorem find_pref_none {l : List TreeNode} {p : String}
    (hkeys : ∀ n ∈ l, n.key = p ++ n.title) {s : String}
    (h : findNode (p ++ s) l = none) : ∀ n ∈ l, n.title ≠ s := by
  intro n hn ht
  exact findNode_none h n hn (by rw [hkeys n hn, ht])

theorem perm_insert_middle (A B C : List α) (r : α) :
    (A ++ (B ++ [r]) ++ C).Perm ((A ++ B ++ C) ++ [r]) := by
  have h1 : A ++ (B ++ [r]) ++ C = (A ++ B) ++ r :: C := by simp
  have h2 : (A ++ B) ++ r :: C ≠ [] := by simp
  rw [h1]
  refine List.perm_middle.trans ?_
  refine (List.perm_append_singleton r (A ++ B ++ C)).symm.trans ?_
  simp

theorem nodupTitles_append_new {l : List TreeNode} {t : TreeNode}
    (hnd : nodupTitles l) (hcanL : ∀ m ∈ l, canonicalNum m.title = true)
    (hcant : canonicalNum t.title = true)
    (hne : ∀ m ∈ l, m.title ≠ t.title) : nodupTitles (l ++ [t]) := by
  unfold nodupTitles at *
  rw [List.map_append, List.nodup_append]
  refine ⟨hnd, by simp, ?_⟩
  intro v hv hv'
  simp only [List.map_cons, List.map_nil, List.mem_singleton] at hv'
  rcases List.mem_map.mp hv with ⟨m, hm, hvm⟩
  exact hne m hm
    (canonicalNum_inj (hcanL m hm) hcant (by rw [hvm]; exact hv'))

theorem validTile_parts {r : TileData} (h : validTile r = true) :
    canonicalNum r.z = true ∧ canonicalNum r.x = true ∧ canonicalNum r.y = true := by
  unfold validTile at h
  rw [Bool.and_eq_true, Bool.and_eq_true] at h
  exact ⟨h.1.1, h.1.2, h.2⟩

theorem mkY_LeafWF {r : TileData} (hy : canonicalNum r.y = true) :
    LeafWF r.z r.x (mkYNode r) :=
  ⟨rfl, hy, rfl, rfl, rfl, rfl, rfl⟩

theorem mkX_PreXWF {r : TileData} (hx : canonicalNum r.x = true)
    (hy : canonicalNum r.y = true) :
    PreXWF r.z (mkXNode r.z r.x [mkYNode r]) := by
  refine ⟨⟨rfl, hx, rfl, rfl, rfl, rfl, rfl, rfl, ?_⟩, ?_⟩
  · intro yn hyn
    rcases List.mem_singleton.mp hyn with rfl
    exact mkY_LeafWF hy
  · show nodupTitles [mkYNode r]
    unfold nodupTitles
    simp

theorem mkZ_PreZWF {r : TileData} (hz : canonicalNum r.z = true)
    (hx : canonicalNum r.x = true) (hy : canonicalNum r.y = true) :
    PreZWF (mkZNode r.z [mkXNode r.z r.x [mkYNode r]]) := by
  refine ⟨⟨rfl, hz, rfl, rfl, rfl, rfl, rfl, rfl, ?_⟩, ?_⟩
  · intro xn hxn
    rcases List.mem_singleton.mp hxn with rfl
    exact mkX_PreXWF hx hy
  · show nodupTitles [mkXNode r.z r.x [mkYNode r]]
    unfold nodupTitles
    simp

theorem nodeRecords_mkZ (r : TileData) :
    nodeRecords (mkZNode r.z [mkXNode r.z r.x [mkYNode r]]) = [r] := rfl

theorem nodupTitles_swap {pre suf : List TreeNode} {n n' : TreeNode}
    (hnd : nodupTitles (pre ++ n :: suf)) (ht : n'.title = n.title) :
    nodupTitles (pre ++ n' :: suf) := by
  unfold nodupTitles at *
  rw [List.map_append, List.map_cons] at hnd ⊢
  rw [ht]
  exact hnd

theorem PreWF_replace {root : List TreeNode} (h : PreWF root) {zKey : String}
    {zn zn' : TreeNode} (hfind : findNode zKey root = some zn)
    (hz' : PreZWF zn') (ht : zn'.title = zn.title) :
    PreWF (replaceFirst zKey zn' root) := by
  obtain ⟨pre, suf, hdec, hpre, hrep⟩ := findNode_decomp zKey root zn hfind
  rw [hrep zn']
  constructor
  · intro m hm
    rcases List.mem_append.mp hm with hm' | hm'
    · exact h.1 m (by rw [hdec]; exact List.mem_append_left _ hm')
    · rcases List.mem_cons.mp hm' with rfl | hm''
      · exact hz'
      · exact h.1 m (by
          rw [hdec]
          exact List.mem_append_right _ (List.mem_cons_of_mem _ hm''))
  · have := h.2
    rw [hdec] at this
    unfold nodupTitles at this ⊢
    rw [List.map_append, List.map_cons] at this ⊢
    rw [ht]
    exact this

theorem perm_insert_mid (A B C : List α) (r : α) :
    (A ++ ((B ++ [r]) ++ C)).Perm ((A ++ (B ++ C)) ++ [r]) := by
  have h1 : A ++ ((B ++ [r]) ++ C) = (A ++ B) ++ r :: C := by simp
  rw [h1]
  refine List.perm_middle.trans ?_
  have h2 : (A ++ B) ++ C = A ++ (B ++ C) := by simp
  rw [h2]
  exact (List.perm_append_singleton r _).symm

theorem pushZ_spec {root : List TreeNode} {r : TileData} (h : PreWF root)
    (hr : validTile r = true)
    (hfz : findNode (buildNodeKey r.z none none) root = none) :
    PreWF (root ++ [mkZNode r.z [mkXNode r.z r.x [mkYNode r]]]) ∧
      recordsOf (root ++ [mkZNode r.z [mkXNode r.z r.x [mkYNode r]]]) =
        recordsOf root ++ [r] := by
  obtain ⟨hz, hx, hy⟩ := validTile_parts hr
  have hkeys : ∀ zn ∈ root, zn.key = "z_" ++ zn.title :=
    fun zn hzn => (h.1 zn hzn).1.1
  refine ⟨⟨?_, ?_⟩, ?_⟩
  · intro m hm
    rcases List.mem_append.mp hm with hm' | hm'
    · exact h.1 m hm'
    · rcases List.mem_singleton.mp hm' with rfl
      exact mkZ_PreZWF hz hx hy
  · exact nodupTitles_append_new h.2 (fun m hm => (h.1 m hm).1.2.1) hz
      (find_pref_none hkeys hfz)
  · rw [recordsOf_append]
    rfl

theorem pushX_spec {root : List TreeNode} {r : TileData} {zn : TreeNode}
    (h : PreWF root) (hr : validTile r = true)
    (hfz : findNode (buildNodeKey r.z none none) root = some zn)
    (hfx : findNode (buildNodeKey r.z (some r.x) none) zn.childrenD = none) :
    PreWF (replaceFirst (buildNodeKey r.z none none)
      (zn.withChildren (zn.childrenD ++ [mkXNode r.z r.x [mkYNode r]])) root) ∧
      (recordsOf (replaceFirst (buildNodeKey r.z none none)
        (zn.withChildren (zn.childrenD ++ [mkXNode r.z r.x [mkYNode r]]))
        root)).Perm (recordsOf root ++ [r]) := by
  obtain ⟨hz, hx, hy⟩ := validTile_parts hr
  have hkeys : ∀ zn ∈ root, zn.key = "z_" ++ zn.title :=
    fun zn hzn => (h.1 zn hzn).1.1
  obtain ⟨hznmem, hzntitle⟩ := find_pref_some hkeys hfz
  obtain ⟨⟨hzkey, hzcan, hzleaf, hzti, hzfn, hzsel, hzcs, hzne, hallx⟩, hznodup⟩ :=
    h.1 zn hznmem
  have hxkeys : ∀ xn ∈ zn.childrenD,
      xn.key = (("z_" ++ r.z) ++ "_x_") ++ xn.title := by
    intro xn hxn
    have := (hallx xn hxn).1.1
    rw [this, hzntitle]
    rfl
  have hnox : ∀ xn ∈ zn.childrenD, xn.title ≠ r.x := find_pref_none hxkeys hfx
  have hzn' : PreZWF (zn.withChildren (zn.childrenD ++ [mkXNode r.z r.x [mkYNode r]])) := by
    refine ⟨⟨?_, ?_, ?_, ?_, ?_, ?_, ?_, ?_, ?_⟩, ?_⟩
    · rw [withChildren_key, withChildren_title, hzkey]
    · rw [withChildren_title]
      exact hzcan
    · rw [withChildren_isLeaf]
      exact hzleaf
    · rw [withChildren_tileId]
      exact hzti
    · rw [withChildren_fileName]
      exact hzfn
    · rw [withChildren_selectable]
      exact hzsel
    · rw [withChildren_children]
      rfl
    · rw [withChildren_childrenD]
      simp
    · intro xn hxn
      rw [withChildren_childrenD] at hxn
      rw [withChildren_title]
      rcases List.mem_append.mp hxn with hm' | hm'
      · exact hallx xn hm'
      · rcases List.mem_singleton.mp hm' with rfl
        rw [hzntitle]
        exact mkX_PreXWF hx hy
    · rw [withChildren_childrenD]
      exact nodupTitles_append_new hznodup
        (fun m hm => (hallx m hm).1.2.1) hx hnox
  refine ⟨PreWF_replace h hfz hzn' (withChildren_title zn _), ?_⟩
  obtain ⟨pre, suf, hdec, hpreK, hrep⟩ :=
    findNode_decomp (buildNodeKey r.z none none) root zn hfz
  rw [hrep, hdec, recordsOf_append, recordsOf_cons, recordsOf_append,
    recordsOf_cons]
  have hnr : nodeRecords (zn.withChildren
      (zn.childrenD ++ [mkXNode r.z r.x [mkYNode r]])) =
      nodeRecords zn ++ [r] := by
    unfold nodeRecords
    rw [withChildren_childrenD, withChildren_title, List.flatMap_append]
    have : zn.childrenD.flatMap (xnRecords zn.title) ++
        [mkXNode r.z r.x [mkYNode r]].flatMap (xnRecords zn.title) =
        zn.childrenD.flatMap (xnRecords zn.title) ++ [r] := by
      congr 1
      show xnRecords zn.title (mkXNode r.z r.x [mkYNode r]) ++ [] = [r]
      rw [List.append_nil]
      show [leafRecord zn.title r.x (mkYNode r)] = [r]
      unfold leafRecord
      rw [hzntitle]
      rfl
    rw [this]
  rw [hnr]
  exact perm_insert_mid (recordsOf pre) (nodeRecords zn) (recordsOf suf) r

theorem perm_insert_mid₂ (A A2 B2 C2 C : List α) (r : α) :
    (A ++ ((A2 ++ ((B2 ++ [r]) ++ C2)) ++ C)).Perm
      ((A ++ ((A2 ++ (B2 ++ C2)) ++ C)) ++ [r]) := by
  have h1 : A ++ ((A2 ++ ((B2 ++ [r]) ++ C2)) ++ C) =
      (A ++ A2 ++ B2) ++ r :: (C2 ++ C) := by simp
  rw [h1]
  refine List.perm_middle.trans ?_
  have h2 : (A ++ A2 ++ B2) ++ (C2 ++ C) = A ++ ((A2 ++ (B2 ++ C2)) ++ C) := by
    simp
  rw [h2]
  exact (List.perm_append_singleton r _).symm

theorem pushLeaf_spec {root : List TreeNode} {r : TileData} {zn xn : TreeNode}
    (h : PreWF root) (hr : validTile r = true)
    (hfz : findNode (buildNodeKey r.z none none) root = some zn)
    (hfx : findNode (buildNodeKey r.z (some r.x) none) zn.childrenD = some xn)
    (hnoy : ∀ yn ∈ xn.childrenD, yn.title ≠ r.y) :
    PreWF (replaceFirst (buildNodeKey r.z none none)
      (zn.withChildren (replaceFirst (buildNodeKey r.z (some r.x) none)
        (xn.withChildren (xn.childrenD ++ [mkYNode r])) zn.childrenD)) root) ∧
      (recordsOf (replaceFirst (buildNodeKey r.z none none)
        (zn.withChildren (replaceFirst (buildNodeKey r.z (some r.x) none)
          (xn.withChildren (xn.childrenD ++ [mkYNode r])) zn.childrenD))
        root)).Perm (recordsOf root ++ [r]) := by
  obtain ⟨hz, hx, hy⟩ := validTile_parts hr
  have hkeys : ∀ zn ∈ root, zn.key = "z_" ++ zn.title :=
    fun zn hzn => (h.1 zn hzn).1.1
  obtain ⟨hznmem, hzntitle⟩ := find_pref_some hkeys hfz
  obtain ⟨⟨hzkey, hzcan, hzleaf, hzti, hzfn, hzsel, hzcs, hzne, hallx⟩, hznodup⟩ :=
    h.1 zn hznmem
  have hxkeys : ∀ x0 ∈ zn.childrenD,
      x0.key = (("z_" ++ r.z) ++ "_x_") ++ x0.title := by
    intro x0 hx0
    have := (hallx x0 hx0).1.1
    rw [this, hzntitle]
    rfl
  obtain ⟨hxnmem, hxntitle⟩ := find_pref_some hxkeys hfx
  obtain ⟨⟨hxkey, hxcan, hxleaf, hxti, hxfn, hxsel, hxcs, hxne, hally⟩, hxnodup⟩ :=
    hallx xn hxnmem
  have hxn' : PreXWF zn.title (xn.withChildren (xn.childrenD ++ [mkYNode r])) := by
    refine ⟨⟨?_, ?_, ?_, ?_, ?_, ?_, ?_, ?_, ?_⟩, ?_⟩
    · rw [withChildren_key, withChildren_title, hxkey]
    · rw [withChildren_title]
      exact hxcan
    · rw [withChildren_isLeaf]
      exact hxleaf
    · rw [withChildren_tileId]
      exact hxti
    · rw [withChildren_fileName]
      exact hxfn
    · rw [withChildren_selectable]
      exact hxsel
    · rw [withChildren_children]
      rfl
    · rw [withChildren_childrenD]
      simp
    · intro yn hyn
      rw [withChildren_childrenD] at hyn
      rw [withChildren_title]
      rcases List.mem_append.mp hyn with hm' | hm'
      · exact hally yn hm'
      · rcases List.mem_singleton.mp hm' with rfl
        rw [hzntitle, hxntitle]
        exact mkY_LeafWF hy
    · rw [withChildren_childrenD]
      exact nodupTitles_append_new hxnodup
        (fun m hm => (hally m hm).2.1) hy hnoy
  obtain ⟨preX, sufX, hdecX, hpreX, hrepX⟩ :=
    findNode_decomp (buildNodeKey r.z (some r.x) none) zn.childrenD xn hfx
  have hzn' : PreZWF (zn.withChildren
      (replaceFirst (buildNodeKey r.z (some r.x) none)
        (xn.withChildren (xn.childrenD ++ [mkYNode r])) zn.childrenD)) := by
    rw [hrepX]
    refine ⟨⟨?_, ?_, ?_, ?_, ?_, ?_, ?_, ?_, ?_⟩, ?_⟩
    · rw [withChildren_key, withChildren_title, hzkey]
    · rw [withChildren_title]
      exact hzcan
    · rw [withChildren_isLeaf]
      exact hzleaf
    · rw [withChildren_tileId]
      exact hzti
    · rw [withChildren_fileName]
      exact hzfn
    · rw [withChildren_selectable]
      exact hzsel
    · rw [withChildren_children]
      rfl
    · rw [withChildren_childrenD]
      simp
    · intro x0 hx0
      rw [withChildren_childrenD] at hx0
      rw [withChildren_title]
      rcases List.mem_append.mp hx0 with hm' | hm'
      · exact hallx x0 (by rw [hdecX]; exact List.mem_append_left _ hm')
      · rcases List.mem_cons.mp hm' with rfl | hm''
        · exact hxn'
        · exact hallx x0 (by
            rw [hdecX]
            exact List.mem_append_right _ (List.mem_cons_of_mem _ hm''))
    · rw [withChildren_childrenD]
      refine nodupTitles_swap ?_ (withChildren_title xn _)
      rw [← hdecX]
      exact hznodup
  refine ⟨PreWF_replace h hfz hzn' (withChildren_title zn _), ?_⟩
  obtain ⟨pre, suf, hdec, hpreK, hrep⟩ :=
    findNode_decomp (buildNodeKey r.z none none) root zn hfz
  rw [hrep, hdec, recordsOf_append, recordsOf_cons, recordsOf_append,
    recordsOf_cons]
  have hxr : xnRecords zn.title (xn.withChildren (xn.childrenD ++ [mkYNode r])) =
      xnRecords zn.title xn ++ [r] := by
    unfold xnRecords
    rw [withChildren_childrenD, withChildren_title, List.map_append]
    congr 1
    show [leafRecord zn.title xn.title (mkYNode r)] = [r]
    unfold leafRecord
    rw [hzntitle, hxntitle]
    rfl
  rw [hrepX]
  have hnr' : nodeRecords (zn.withChildren
      (preX ++ (xn.withChildren (xn.childrenD ++ [mkYNode r])) :: sufX)) =
      preX.flatMap (xnRecords zn.title) ++
        ((xnRecords zn.title xn ++ [r]) ++ sufX.flatMap (xnRecords zn.title)) := by
    unfold nodeRecords
    rw [withChildren_childrenD, withChildren_title, List.flatMap_append,
      List.flatMap_cons, hxr]
  have hnr : nodeRecords zn =
      preX.flatMap (xnRecords zn.title) ++
        (xnRecords zn.title xn ++ sufX.flatMap (xnRecords zn.title)) := by
    unfold nodeRecords
    rw [hdecX, List.flatMap_append, List.flatMap_cons]
  rw [hnr', hnr]
  exact perm_insert_mid₂ (recordsOf pre) (preX.flatMap (xnRecords zn.title))
    (xnRecords zn.title xn) (sufX.flatMap (xnRecords zn.title))
    (recordsOf suf) r

theorem stepBuild_spec {root : List TreeNode} {r : TileData} (h : PreWF root)
    (hr : validTile r = true)
    (hnot : ∀ q ∈ recordsOf root, coordOf q ≠ coordOf r) :
    PreWF (stepBuild root r) ∧
      (recordsOf (stepBuild root r)).Perm (recordsOf root ++ [r]) := by
  have hkeys : ∀ zn ∈ root, zn.key = "z_" ++ zn.title :=
    fun z hz => (h.1 z hz).1.1
  simp only [stepBuild]
  cases hfz : findNode (buildNodeKey r.z none none) root with
  | none =>
    obtain ⟨h1, h2⟩ := pushZ_spec h hr hfz
    exact ⟨h1, by rw [h2]⟩
  | some zn =>
    dsimp only
    cases hfx : findNode (buildNodeKey r.z (some r.x) none) zn.childrenD with
    | none => exact pushX_spec h hr hfz hfx
    | some xn =>
      refine pushLeaf_spec h hr hfz hfx ?_
      intro yn hyn htitle
      obtain ⟨hznmem, hzntitle⟩ := find_pref_some hkeys hfz
      have hxkeys : ∀ x0 ∈ zn.childrenD,
          x0.key = (("z_" ++ r.z) ++ "_x_") ++ x0.title := by
        intro x0 hx0
        have := ((h.1 zn hznmem).1.2.2.2.2.2.2.2.2 x0 hx0).1.1
        rw [this, hzntitle]
        rfl
      obtain ⟨hxnmem, hxntitle⟩ := find_pref_some hxkeys hfx
      have hq : leafRecord zn.title xn.title yn ∈ recordsOf root :=
        mem_recordsOf.mpr ⟨zn, hznmem, xn, hxnmem, yn, hyn, rfl⟩
      refine hnot _ hq ?_
      show (zn.title, xn.title, yn.title) = (r.z, r.x, r.y)
      rw [hzntitle, hxntitle, htitle]

theorem foldl_stepBuild_spec (R : List TileData) :
    ∀ acc : List TreeNode, PreWF acc → (∀ r ∈ R, validTile r = true) →
      ((recordsOf acc).map coordOf ++ R.map coordOf).Nodup →
      PreWF (R.foldl stepBuild acc) ∧
        (recordsOf (R.foldl stepBuild acc)).Perm (recordsOf acc ++ R) := by
  induction R with
  | nil =>
    intro acc hacc _ _
    exact ⟨hacc, by simp⟩
  | cons r R ih =>
    intro acc hacc hval hnd
    have hr : validTile r = true := hval r (List.mem_cons_self r R)
    have hnot : ∀ q ∈ recordsOf acc, coordOf q ≠ coordOf r := by
      intro q hq hqc
      rw [List.nodup_append] at hnd
      exact hnd.2.2 (List.mem_map_of_mem coordOf hq)
        (by rw [List.map_cons, hqc]; exact List.mem_cons_self _ _)
    obtain ⟨hstep, hsteprec⟩ := stepBuild_spec hacc hr hnot
    have hnd' : ((recordsOf (stepBuild acc r)).map coordOf ++
        R.map coordOf).Nodup := by
      have hp1 : ((recordsOf (stepBuild acc r)).map coordOf).Perm
          ((recordsOf acc).map coordOf ++ [coordOf r]) := by
        have hm := hsteprec.map coordOf
        rw [List.map_append] at hm
        exact hm
      have hp : ((recordsOf (stepBuild acc r)).map coordOf ++
          R.map coordOf).Perm
          ((recordsOf acc).map coordOf ++ (r :: R).map coordOf) := by
        refine (hp1.append_right (R.map coordOf)).trans ?_
        rw [List.append_assoc, List.singleton_append, List.map_cons]
      exact hp.nodup_iff.mpr hnd
    obtain ⟨hfold, hfoldrec⟩ := ih (stepBuild acc r) hstep
      (fun q hq => hval q (List.mem_cons_of_mem r hq)) hnd'
    rw [List.foldl_cons]
    refine ⟨hfold, ?_⟩
    refine (hfoldrec.trans (hsteprec.append_right R)).trans ?_
    rw [List.append_assoc, List.singleton_append]

theorem build_spec {R : List TileData} (hv : validRecords R) :
    WF (buildTreeFromTiles R) ∧ (recordsOf (buildTreeFromTiles R)).Perm R := by
  obtain ⟨hval, hnd⟩ := hv
  have h0 : PreWF ([] : List TreeNode) := by
    constructor
    · intro z hz
      exact absurd hz (List.not_mem_nil z)
    · unfold nodupTitles
      simp
  obtain ⟨hpre, hrec⟩ := foldl_stepBuild_spec R [] h0 hval
    (by simpa [recordsOf] using hnd)
  obtain ⟨hwf, hsrec⟩ := sortTreeData_preWF hpre
  unfold buildTreeFromTiles
  refine ⟨hwf, hsrec.trans ?_⟩
  simpa [recordsOf] using hrec

theorem WF_Inv {root : List TreeNode} (h : WF root) : Inv root := by
  obtain ⟨hall, hpair⟩ := h
  refine ⟨⟨?_, ?_⟩, ?_⟩
  · refine hpair.imp_of_mem ?_
    intro a b ha hb hab
    have hsa := segIntAt_zkey (hall a ha).1.1 (canonicalNum_digit (hall a ha).1.2.1)
    have hsb := segIntAt_zkey (hall b hb).1.1 (canonicalNum_digit (hall b hb).1.2.1)
    rw [ltKeyAtB_of_seg hsa hsb]
    exact decide_eq_true hab
  · intro zn hzn
    obtain ⟨⟨hk, hcan, h3, h4, h5, h6, h7, h8, hallx⟩, hpx⟩ := hall zn hzn
    have hzdig := canonicalNum_digit hcan
    constructor
    · refine hpx.imp_of_mem ?_
      intro a b ha hb hab
      have hsa := segIntAt_xkey zn.title (hallx a ha).1.1 hzdig
        (canonicalNum_digit (hallx a ha).1.2.1)
      have hsb := segIntAt_xkey zn.title (hallx b hb).1.1 hzdig
        (canonicalNum_digit (hallx b hb).1.2.1)
      rw [ltKeyAtB_of_seg hsa hsb]
      exact decide_eq_true hab
    · intro xn hxn
      obtain ⟨⟨hkx, hcanx, hx3, hx4, hx5, hx6, hx7, hx8, hally⟩, hpy⟩ :=
        hallx xn hxn
      have hxdig := canonicalNum_digit hcanx
      refine hpy.imp_of_mem ?_
      intro a b ha hb hab
      have hsa := segIntAt_ykey zn.title xn.title (hally a ha).1 hzdig hxdig
        (canonicalNum_digit (hally a ha).2.1)
      have hsb := segIntAt_ykey zn.title xn.title (hally b hb).1 hzdig hxdig
        (canonicalNum_digit (hally b hb).2.1)
      rw [ltKeyAtB_of_seg hsa hsb]
      exact decide_eq_true hab
  · intro zn hzn
    obtain ⟨⟨hk, hcan, h3, h4, h5, h6, h7, h8, hallx⟩, hpx⟩ := hall zn hzn
    refine ⟨fun _ => h8, ?_⟩
    intro xn hxn _
    exact (hallx xn hxn).1.2.2.2.2.2.2.2.1

theorem insert_spec {T : List TreeNode} {r : TileData} (h : WF T)
    (hr : validTile r = true) :
    WF (addTileToTree T r) ∧
      (recordsOf (addTileToTree T r)).Perm
        (if hasCoord T r then recordsOf T else recordsOf T ++ [r]) := by
  have hp : PreWF T := WF_pre h
  have hkeys : ∀ zn ∈ T, zn.key = "z_" ++ zn.title :=
    fun z hz => (hp.1 z hz).1.1
  simp only [addTileToTree]
  cases hfz : findNode (buildNodeKey r.z none none) T with
  | none =>
    have hnc : ¬ hasCoord T r := by
      rintro ⟨q, hq, hqc⟩
      obtain ⟨zn, hzn, xn, hxn, yn, hyn, hrec, hz', hx', hy'⟩ := record_path hq
      refine find_pref_none hkeys hfz zn hzn ?_
      rw [hz']
      exact congrArg Prod.fst hqc
    obtain ⟨h1, h2⟩ := pushZ_spec hp hr hfz
    obtain ⟨hwf, hsrec⟩ := sortTreeData_preWF h1
    rw [if_neg hnc]
    rw [h2] at hsrec
    exact ⟨hwf, hsrec⟩
  | some zn =>
    dsimp only
    obtain ⟨hznmem, hzntitle⟩ := find_pref_some hkeys hfz
    have hxkeys : ∀ x0 ∈ zn.childrenD,
        x0.key = (("z_" ++ r.z) ++ "_x_") ++ x0.title := by
      intro x0 hx0
      have := ((hp.1 zn hznmem).1.2.2.2.2.2.2.2.2 x0 hx0).1.1
      rw [this, hzntitle]
      rfl
    cases hfx : findNode (buildNodeKey r.z (some r.x) none) zn.childrenD with
    | none =>
      have hnc : ¬ hasCoord T r := by
        rintro ⟨q, hq, hqc⟩
        obtain ⟨zn', hzn', xn', hxn', yn', hyn', hrec, hz', hx', hy'⟩ :=
          record_path hq
        have hztq : zn'.title = zn.title := by
          rw [hz', hzntitle]
          exact congrArg Prod.fst hqc
        have hzz : zn' = zn := eq_of_mem_pairwise_titles h.2 hzn' hznmem hztq
        subst hzz
        refine find_pref_none hxkeys hfx xn' hxn' ?_
        rw [hx']
        exact congrArg (fun p => p.2.1) hqc
      obtain ⟨h1, h2⟩ := pushX_spec hp hr hfz hfx
      obtain ⟨hwf, hsrec⟩ := sortTreeData_preWF h1
      rw [if_neg hnc]
      exact ⟨hwf, hsrec.trans h2⟩
    | some xn =>
      dsimp only
      obtain ⟨hxnmem, hxntitle⟩ := find_pref_some hxkeys hfx
      have hykeys : ∀ y0 ∈ xn.childrenD,
          y0.key = (((("z_" ++ r.z) ++ "_x_") ++ r.x) ++ "_y_") ++ y0.title := by
        intro y0 hy0
        have := (((hp.1 zn hznmem).1.2.2.2.2.2.2.2.2 xn
          hxnmem).1.2.2.2.2.2.2.2.2 y0 hy0).1
        rw [this, hzntitle, hxntitle]
        rfl
      cases hfy : findNode (buildNodeKey r.z (some r.x) (some r.y))
          xn.childrenD with
      | some yn =>
        obtain ⟨hynmem, hyntitle⟩ := find_pref_some hykeys hfy
        have hc : hasCoord T r :=
          ⟨leafRecord zn.title xn.title yn,
            mem_recordsOf.mpr ⟨zn, hznmem, xn, hxnmem, yn, hynmem, rfl⟩, by
              show (zn.title, xn.title, yn.title) = (r.z, r.x, r.y)
              rw [hzntitle, hxntitle, hyntitle]⟩
        obtain ⟨hwf, hsrec⟩ := sortTreeData_preWF hp
        rw [if_pos hc]
        exact ⟨hwf, hsrec⟩
      | none =>
        have hnoy : ∀ yn ∈ xn.childrenD, yn.title ≠ r.y :=
          find_pref_none hykeys hfy
        have hnc : ¬ hasCoord T r := by
          rintro ⟨q, hq, hqc⟩
          obtain ⟨zn', hzn', xn', hxn', yn', hyn', hrec, hz', hx', hy'⟩ :=
            record_path hq
          have hztq : zn'.title = zn.title := by
            rw [hz', hzntitle]
            exact congrArg Prod.fst hqc
          have hzz : zn = zn' :=
            (eq_of_mem_pairwise_titles h.2 hzn' hznmem hztq).symm
          subst hzz
          have hxtq : xn'.title = xn.title := by
            rw [hx', hxntitle]
            exact congrArg (fun p => p.2.1) hqc
          have hxx : xn' = xn :=
            eq_of_mem_pairwise_titles (h.1 zn hznmem).2 hxn' hxnmem hxtq
          subst hxx
          refine hnoy yn' hyn' ?_
          rw [hy']
          exact congrArg (fun p => p.2.2) hqc
        obtain ⟨h1, h2⟩ := pushLeaf_spec hp hr hfz hfx hnoy
        obtain ⟨hwf, hsrec⟩ := sortTreeData_preWF h1
        rw [if_neg hnc]
        exact ⟨hwf, hsrec.trans h2⟩

theorem pairwise_middle_congr {pre suf : List TreeNode} {n n' : TreeNode}
    (ht : numVal n'.title = numVal n.title)
    (h : (pre ++ n :: suf).Pairwise ltTitle) :
    (pre ++ n' :: suf).Pairwise ltTitle := by
  rw [List.pairwise_append] at h ⊢
  obtain ⟨h1, h2, h3⟩ := h
  rw [List.pairwise_cons] at h2 ⊢
  refine ⟨h1, ⟨?_, h2.2⟩, ?_⟩
  · intro m hm
    show numVal n'.title < numVal m.title
    rw [ht]
    exact h2.1 m hm
  · intro a ha b hb
    rcases List.mem_cons.mp hb with rfl | hb'
    · show numVal a.title < numVal b.title
      rw [ht]
      exact h3 a ha n (List.mem_cons_self n suf)
    · exact h3 a ha b (List.mem_cons_of_mem n hb')

theorem ZWF_withChildren {zn : TreeNode} (h : ZWF zn) {L : List TreeNode}
    (hne : L.isEmpty = false)
    (hall : ∀ x0 ∈ L, XWF zn.title x0)
    (hpair : L.Pairwise ltTitle) : ZWF (zn.withChildren L) := by
  obtain ⟨⟨h1, h2, h3, h4, h5, h6, h7, h8, h9⟩, hp⟩ := h
  refine ⟨⟨?_, ?_, ?_, ?_, ?_, ?_, ?_, ?_, ?_⟩, ?_⟩
  · rw [withChildren_key, withChildren_title]
    exact h1
  · rw [withChildren_title]
    exact h2
  · rw [withChildren_isLeaf]
    exact h3
  · rw [withChildren_tileId]
    exact h4
  · rw [withChildren_fileName]
    exact h5
  · rw [withChildren_selectable]
    exact h6
  · rw [withChildren_children]
    rfl
  · rw [withChildren_childrenD]
    exact hne
  · rw [withChildren_childrenD, withChildren_title]
    exact hall
  · rw [withChildren_childrenD]
    exact hpair

theorem XWF_withChildren {z : String} {xn : TreeNode} (h : XWF z xn)
    {L : List TreeNode} (hne : L.isEmpty = false)
    (hall : ∀ y0 ∈ L, LeafWF z xn.title y0)
    (hpair : L.Pairwise ltTitle) : XWF z (xn.withChildren L) := by
  obtain ⟨⟨h1, h2, h3, h4, h5, h6, h7, h8, h9⟩, hp⟩ := h
  refine ⟨⟨?_, ?_, ?_, ?_, ?_, ?_, ?_, ?_, ?_⟩, ?_⟩
  · rw [withChildren_key, withChildren_title]
    exact h1
  · rw [withChildren_title]
    exact h2
  · rw [withChildren_isLeaf]
    exact h3
  · rw [withChildren_tileId]
    exact h4
  · rw [withChildren_fileName]
    exact h5
  · rw [withChildren_selectable]
    exact h6
  · rw [withChildren_children]
    rfl
  · rw [withChildren_childrenD]
    exact hne
  · rw [withChildren_childrenD, withChildren_title]
    exact hall
  · rw [withChildren_childrenD]
    exact hpair

theorem remove_spec {T : List TreeNode} {r : TileData} (h : WF T) :
    WF (removeTileFromTree T r) ∧
      ∀ q ∈ recordsOf (removeTileFromTree T r),
        q ∈ recordsOf T ∧ coordOf q ≠ coordOf r := by
  have hp : PreWF T := WF_pre h
  have hkeys : ∀ zn ∈ T, zn.key = "z_" ++ zn.title :=
    fun z hz => (hp.1 z hz).1.1
  simp only [removeTileFromTree]
  cases hfz : findNode (buildNodeKey r.z none none) T with
  | none =>
    refine ⟨h, fun q hq => ⟨hq, ?_⟩⟩
    intro hqc
    obtain ⟨zn, hzn, xn, hxn, yn, hyn, hrec, hz', hx', hy'⟩ := record_path hq
    exact find_pref_none hkeys hfz zn hzn
      (by rw [hz']; exact congrArg Prod.fst hqc)
  | some zn =>
    dsimp only
    obtain ⟨hznmem, hzntitle⟩ := find_pref_some hkeys hfz
    have hzwf := h.1 zn hznmem
    have hxkeys : ∀ x0 ∈ zn.childrenD,
        x0.key = (("z_" ++ r.z) ++ "_x_") ++ x0.title := by
      intro x0 hx0
      have := (hzwf.1.2.2.2.2.2.2.2.2 x0 hx0).1.1
      rw [this, hzntitle]
      rfl
    have hzcseq : zn.children = some zn.childrenD :=
      children_eq_some_childrenD hzwf.1.2.2.2.2.2.2.1
    cases hzs : zn.children with
    | none =>
      rw [hzcseq] at hzs
      exact absurd hzs (by simp)
    | some zcs =>
      rw [hzcseq] at hzs
      have hzcs : zn.childrenD = zcs := Option.some.inj hzs
      subst hzcs
      dsimp only
      cases hfx : findNode (buildNodeKey r.z (some r.x) none) zn.childrenD with
      | none =>
        refine ⟨h, fun q hq => ⟨hq, ?_⟩⟩
        intro hqc
        obtain ⟨zn', hzn', xn', hxn', yn', hyn', hrec, hz', hx', hy'⟩ :=
          record_path hq
        have hztq : zn'.title = zn.title := by
          rw [hz', hzntitle]
          exact congrArg Prod.fst hqc
        have hzz : zn = zn' := (eq_of_mem_pairwise_titles h.2 hzn' hznmem hztq).symm
        subst hzz
        exact find_pref_none hxkeys hfx xn' hxn'
          (by rw [hx']; exact congrArg (fun p => p.2.1) hqc)
      | some xn =>
        dsimp only
        obtain ⟨hxnmem, hxntitle⟩ := find_pref_some hxkeys hfx
        have hxwf : XWF zn.title xn := hzwf.1.2.2.2.2.2.2.2.2 xn hxnmem
        have hykeys : ∀ y0 ∈ xn.childrenD,
            y0.key = (((("z_" ++ r.z) ++ "_x_") ++ r.x) ++ "_y_") ++ y0.title := by
          intro y0 hy0
          have := (hxwf.1.2.2.2.2.2.2.2.2 y0 hy0).1
          rw [this, hzntitle, hxntitle]
          rfl
        have hxcseq : xn.children = some xn.childrenD :=
          children_eq_some_childrenD hxwf.1.2.2.2.2.2.2.1
        cases hxs : xn.children with
        | none =>
          rw [hxcseq] at hxs
          exact absurd hxs (by simp)
        | some ycs =>
          rw [hxcseq] at hxs
          have hycs : xn.childrenD = ycs := Option.some.inj hxs
          subst hycs
          dsimp only
          obtain ⟨pre, suf, hT, hpreK, hrepZ⟩ :=
            findNode_decomp (buildNodeKey r.z none none) T zn hfz
          obtain ⟨preX, sufX, hZC, hpreXK, hrepX⟩ :=
            findNode_decomp (buildNodeKey r.z (some r.x) none) zn.childrenD xn hfx
          have hpairT : (pre ++ zn :: suf).Pairwise ltTitle := by
            rw [← hT]
            exact h.2
          have hsideT : ∀ m, (m ∈ pre ∨ m ∈ suf) → m.title ≠ r.z := by
            intro m hm htm
            obtain ⟨hp1, hp2, hcross⟩ := List.pairwise_append.mp hpairT
            have heq : numVal m.title = numVal zn.title := by
              rw [htm, hzntitle]
            rcases hm with hm | hm
            · have := hcross m hm zn (List.mem_cons_self zn suf)
              exact absurd heq (Nat.ne_of_lt this)
            · have := (List.pairwise_cons.mp hp2).1 m hm
              exact absurd heq.symm (Nat.ne_of_lt this)
          have hmemT : ∀ m, (m ∈ pre ∨ m ∈ suf) → m ∈ T := by
            intro m hm
            rw [hT]
            rcases hm with hm | hm
            · exact List.mem_append.mpr (Or.inl hm)
            · exact List.mem_append.mpr (Or.inr (List.mem_cons_of_mem zn hm))
          have hpairX : (preX ++ xn :: sufX).Pairwise ltTitle := by
            rw [← hZC]
            exact hzwf.2
          have hsideX : ∀ m, (m ∈ preX ∨ m ∈ sufX) → m.title ≠ r.x := by
            intro m hm htm
            obtain ⟨hp1, hp2, hcross⟩ := List.pairwise_append.mp hpairX
            have heq : numVal m.title = numVal xn.title := by
              rw [htm, hxntitle]
            rcases hm with hm | hm
            · have := hcross m hm xn (List.mem_cons_self xn sufX)
              exact absurd heq (Nat.ne_of_lt this)
            · have := (List.pairwise_cons.mp hp2).1 m hm
              exact absurd heq.symm (Nat.ne_of_lt this)
          have hmemZC : ∀ m, (m ∈ preX ∨ m ∈ sufX) → m ∈ zn.childrenD := by
            intro m hm
            rw [hZC]
            rcases hm with hm | hm
            · exact List.mem_append.mpr (Or.inl hm)
            · exact List.mem_append.mpr (Or.inr (List.mem_cons_of_mem xn hm))
          have hyKeep : ∀ y0 ∈ xn.childrenD,
              (y0.key != buildNodeKey r.z (some r.x) (some r.y)) = true →
                y0.title ≠ r.y := by
            intro y0 hy0 hkne hty
            refine bne_iff_ne.mp hkne ?_
            rw [hykeys y0 hy0, hty]
            rfl
          have hxKeep : ∀ x0 ∈ zn.childrenD,
              (x0.key != buildNodeKey r.z (some r.x) none) = true →
                x0.title ≠ r.x := by
            intro x0 hx0 hkne htx
            refine bne_iff_ne.mp hkne ?_
            rw [hxkeys x0 hx0, htx]
            rfl
          have hzKeep : ∀ m ∈ T,
              (m.key != buildNodeKey r.z none none) = true → m.title ≠ r.z := by
            intro m hm hkne htm
            refine bne_iff_ne.mp hkne ?_
            rw [hkeys m hm, htm]
            rfl
          by_cases hye :
              ((xn.childrenD.filter fun c =>
                c.key != buildNodeKey r.z (some r.x) (some r.y)).isEmpty = true)
          · rw [if_pos hye]
            by_cases hxe :
                ((zn.childrenD.filter fun c =>
                  c.key != buildNodeKey r.z (some r.x) none).isEmpty = true)
            · rw [if_pos hxe]
              constructor
              · refine ⟨?_, h.2.sublist (List.filter_sublist T)⟩
                intro m hm
                exact h.1 m (List.mem_of_mem_filter hm)
              · intro q hq
                obtain ⟨zn', hzn', xn', hxn', yn', hyn', hrec, hz', hx', hy'⟩ :=
                  record_path hq
                obtain ⟨hznT, hznk⟩ := List.mem_filter.mp hzn'
                refine ⟨mem_recordsOf.mpr ⟨zn', hznT, xn', hxn', yn', hyn',
                  hrec⟩, ?_⟩
                intro hqc
                refine hzKeep zn' hznT hznk ?_
                rw [hz']
                exact congrArg Prod.fst hqc
            · rw [if_neg hxe]
              rw [hrepZ]
              have hxene : (zn.childrenD.filter fun c =>
                  c.key != buildNodeKey r.z (some r.x) none).isEmpty = false := by
                simpa using hxe
              have hzwf' : ZWF (zn.withChildren (zn.childrenD.filter fun c =>
                  c.key != buildNodeKey r.z (some r.x) none)) := by
                refine ZWF_withChildren hzwf hxene ?_ ?_
                · intro x0 hx0
                  exact hzwf.1.2.2.2.2.2.2.2.2 x0 (List.mem_of_mem_filter hx0)
                · exact hzwf.2.sublist (List.filter_sublist zn.childrenD)
              have hMwf : WF (pre ++ (zn.withChildren (zn.childrenD.filter fun c =>
                  c.key != buildNodeKey r.z (some r.x) none)) :: suf) := by
                constructor
                · intro m hm
                  rcases List.mem_append.mp hm with hm' | hm'
                  · exact h.1 m (hmemT m (Or.inl hm'))
                  · rcases List.mem_cons.mp hm' with rfl | hm''
                    · exact hzwf'
                    · exact h.1 m (hmemT m (Or.inr hm''))
                · refine pairwise_middle_congr ?_ hpairT
                  rw [withChildren_title]
              obtain ⟨hwfS, hpermS⟩ := sortTreeData_preWF (WF_pre hMwf)
              refine ⟨hwfS, ?_⟩
              intro q hq
              have hqM := hpermS.mem_iff.mp hq
              obtain ⟨zn', hzn', xn', hxn', yn', hyn', hrec, hz', hx', hy'⟩ :=
                record_path hqM
              rcases List.mem_append.mp hzn' with hm' | hm'
              · refine ⟨mem_recordsOf.mpr ⟨zn', hmemT zn' (Or.inl hm'), xn',
                  hxn', yn', hyn', hrec⟩, ?_⟩
                intro hqc
                refine hsideT zn' (Or.inl hm') ?_
                rw [hz']
                exact congrArg Prod.fst hqc
              · rcases List.mem_cons.mp hm' with rfl | hm''
                · rw [withChildren_childrenD] at hxn'
                  obtain ⟨hxnZC, hxnk⟩ := List.mem_filter.mp hxn'
                  rw [withChildren_title] at hrec
                  refine ⟨mem_recordsOf.mpr ⟨zn, hznmem, xn', hxnZC, yn',
                    hyn', hrec⟩, ?_⟩
                  intro hqc
                  refine hxKeep xn' hxnZC hxnk ?_
                  rw [hx']
                  exact congrArg (fun p => p.2.1) hqc
                · refine ⟨mem_recordsOf.mpr ⟨zn', hmemT zn' (Or.inr hm''), xn',
                    hxn', yn', hyn', hrec⟩, ?_⟩
                  intro hqc
                  refine hsideT zn' (Or.inr hm'') ?_
                  rw [hz']
                  exact congrArg Prod.fst hqc
          · rw [if_neg hye]
            rw [hrepZ, hrepX]
            have hyene : (xn.childrenD.filter fun c =>
                c.key != buildNodeKey r.z (some r.x) (some r.y)).isEmpty = false := by
              simpa using hye
            have hxwf' : XWF zn.title (xn.withChildren (xn.childrenD.filter fun c =>
                c.key != buildNodeKey r.z (some r.x) (some r.y))) := by
              refine XWF_withChildren hxwf hyene ?_ ?_
              · intro y0 hy0
                exact hxwf.1.2.2.2.2.2.2.2.2 y0 (List.mem_of_mem_filter hy0)
              · exact hxwf.2.sublist (List.filter_sublist xn.childrenD)
            have hzwf' : ZWF (zn.withChildren (preX ++ (xn.withChildren
                (xn.childrenD.filter fun c =>
                  c.key != buildNodeKey r.z (some r.x) (some r.y))) :: sufX)) := by
              refine ZWF_withChildren hzwf ?_ ?_ ?_
              · rw [isEmpty_false_iff]
                simp
              · intro x0 hx0
                rcases List.mem_append.mp hx0 with hm' | hm'
                · exact hzwf.1.2.2.2.2.2.2.2.2 x0 (hmemZC x0 (Or.inl hm'))
                · rcases List.mem_cons.mp hm' with rfl | hm''
                  · exact hxwf'
                  · exact hzwf.1.2.2.2.2.2.2.2.2 x0 (hmemZC x0 (Or.inr hm''))
              · refine pairwise_middle_congr ?_ hpairX
                rw [withChildren_title]
            have hMwf : WF (pre ++ (zn.withChildren (preX ++ (xn.withChildren
                (xn.childrenD.filter fun c =>
                  c.key != buildNodeKey r.z (some r.x) (some r.y))) :: sufX)) ::
                suf) := by
              constructor
              · intro m hm
                rcases List.mem_append.mp hm with hm' | hm'
                · exact h.1 m (hmemT m (Or.inl hm'))
                · rcases List.mem_cons.mp hm' with rfl | hm''
                  · exact hzwf'
                  · exact h.1 m (hmemT m (Or.inr hm''))
              · refine pairwise_middle_congr ?_ hpairT
                rw [withChildren_title]
            obtain ⟨hwfS, hpermS⟩ := sortTreeData_preWF (WF_pre hMwf)
            refine ⟨hwfS, ?_⟩
            intro q hq
            have hqM := hpermS.mem_iff.mp hq
            obtain ⟨zn', hzn', xn', hxn', yn', hyn', hrec, hz', hx', hy'⟩ :=
              record_path hqM
            rcases List.mem_append.mp hzn' with hm' | hm'
            · refine ⟨mem_recordsOf.mpr ⟨zn', hmemT zn' (Or.inl hm'), xn', hxn',
                yn', hyn', hrec⟩, ?_⟩
              intro hqc
              refine hsideT zn' (Or.inl hm') ?_
              rw [hz']
              exact congrArg Prod.fst hqc
            · rcases List.mem_cons.mp hm' with rfl | hm''
              · rw [withChildren_childrenD] at hxn'
                rw [withChildren_title] at hrec
                rcases List.mem_append.mp hxn' with hx2 | hx2
                · refine ⟨mem_recordsOf.mpr ⟨zn, hznmem, xn', hmemZC xn'
                    (Or.inl hx2), yn', hyn', hrec⟩, ?_⟩
                  intro hqc
                  refine hsideX xn' (Or.inl hx2) ?_
                  rw [hx']
                  exact congrArg (fun p => p.2.1) hqc
                · rcases List.mem_cons.mp hx2 with rfl | hx3
                  · rw [withChildren_childrenD] at hyn'
                    rw [withChildren_title] at hrec
                    obtain ⟨hynXC, hynk⟩ := List.mem_filter.mp hyn'
                    refine ⟨mem_recordsOf.mpr ⟨zn, hznmem, xn, hxnmem, yn',
                      hynXC, hrec⟩, ?_⟩
                    intro hqc
                    refine hyKeep yn' hynXC hynk ?_
                    rw [hy']
                    exact congrArg (fun p => p.2.2) hqc
                  · refine ⟨mem_recordsOf.mpr ⟨zn, hznmem, xn', hmemZC xn'
                      (Or.inr hx3), yn', hyn', hrec⟩, ?_⟩
                    intro hqc
                    refine hsideX xn' (Or.inr hx3) ?_
                    rw [hx']
                    exact congrArg (fun p => p.2.1) hqc
              · refine ⟨mem_recordsOf.mpr ⟨zn', hmemT zn' (Or.inr hm''), xn',
                  hxn', yn', hyn', hrec⟩, ?_⟩
                intro hqc
                refine hsideT zn' (Or.inr hm'') ?_
                rw [hz']
                exact congrArg Prod.fst hqc

theorem removeMany_spec (R : List TileData) :
    ∀ T : List TreeNode, WF T → WF (removeTilesFromTree T R) ∧
      ∀ q ∈ recordsOf (removeTilesFromTree T R),
        q ∈ recordsOf T ∧ ∀ r ∈ R, coordOf q ≠ coordOf r := by
  induction R with
  | nil =>
    intro T hT
    refine ⟨hT, fun q hq => ⟨hq, fun r hr => absurd hr (List.not_mem_nil r)⟩⟩
  | cons r R ih =>
    intro T hT
    obtain ⟨h1, h2⟩ := remove_spec (r := r) hT
    obtain ⟨h3, h4⟩ := ih (removeTileFromTree T r) h1
    have hfold : removeTilesFromTree T (r :: R) =
        removeTilesFromTree (removeTileFromTree T r) R := by
      unfold removeTilesFromTree
      rw [List.foldl_cons]
    rw [hfold]
    refine ⟨h3, ?_⟩
    intro q hq
    obtain ⟨hq1, hq2⟩ := h4 q hq
    obtain ⟨hq3, hq4⟩ := h2 q hq1
    refine ⟨hq3, ?_⟩
    intro r' hr'
    rcases List.mem_cons.mp hr' with rfl | hr''
    · exact hq4
    · exact hq2 r' hr''

theorem wf_empty_of_records {t : List TreeNode} (h : WF t)
    (hr : recordsOf t = []) : t = [] := by
  cases t with
  | nil => rfl
  | cons zn rest =>
    exfalso
    have hzwf := h.1 zn (List.mem_cons_self zn rest)
    have hzne : zn.childrenD ≠ [] :=
      isEmpty_false_iff.mp hzwf.1.2.2.2.2.2.2.2.1
    obtain ⟨xn, hxn⟩ := List.exists_mem_of_ne_nil zn.childrenD hzne
    have hxwf := hzwf.1.2.2.2.2.2.2.2.2 xn hxn
    have hxne : xn.childrenD ≠ [] :=
      isEmpty_false_iff.mp hxwf.1.2.2.2.2.2.2.2.1
    obtain ⟨yn, hyn⟩ := List.exists_mem_of_ne_nil xn.childrenD hxne
    have : leafRecord zn.title xn.title yn ∈ recordsOf (zn :: rest) :=
      mem_recordsOf.mpr ⟨zn, List.mem_cons_self zn rest, xn, hxn, yn, hyn, rfl⟩
    rw [hr] at this
    exact absurd this (List.not_mem_nil _)

theorem foldl_insert_spec (R : List TileData) :
    ∀ acc : List TreeNode, WF acc → (∀ r ∈ R, validTile r = true) →
      ((recordsOf acc).map coordOf ++ R.map coordOf).Nodup →
      WF (R.foldl addTileToTree acc) ∧
        (recordsOf (R.foldl addTileToTree acc)).Perm (recordsOf acc ++ R) := by
  induction R with
  | nil =>
    intro acc hacc _ _
    exact ⟨hacc, by simp⟩
  | cons r R ih =>
    intro acc hacc hval hnd
    have hr : validTile r = true := hval r (List.mem_cons_self r R)
    have hnc : ¬ hasCoord acc r := by
      rintro ⟨q, hq, hqc⟩
      rw [List.nodup_append] at hnd
      exact hnd.2.2 (List.mem_map_of_mem coordOf hq)
        (by rw [List.map_cons, hqc]; exact List.mem_cons_self _ _)
    obtain ⟨hstep, hsteprec⟩ := insert_spec hacc hr
    rw [if_neg hnc] at hsteprec
    have hnd' : ((recordsOf (addTileToTree acc r)).map coordOf ++
        R.map coordOf).Nodup := by
      have hp1 : ((recordsOf (addTileToTree acc r)).map coordOf).Perm
          ((recordsOf acc).map coordOf ++ [coordOf r]) := by
        have hm := hsteprec.map coordOf
        rw [List.map_append] at hm
        exact hm
      have hpq : ((recordsOf (addTileToTree acc r)).map coordOf ++
          R.map coordOf).Perm
          ((recordsOf acc).map coordOf ++ (r :: R).map coordOf) := by
        refine (hp1.append_right (R.map coordOf)).trans ?_
        rw [List.append_assoc, List.singleton_append, List.map_cons]
      exact hpq.nodup_iff.mpr hnd
    obtain ⟨hfold, hfoldrec⟩ := ih (addTileToTree acc r) hstep
      (fun q hq => hval q (List.mem_cons_of_mem r hq)) hnd'
    rw [List.foldl_cons]
    refine ⟨hfold, ?_⟩
    refine (hfoldrec.trans (hsteprec.append_right R)).trans ?_
    rw [List.append_assoc, List.singleton_append]

/-- Claim C4: every tree returned by `buildTreeFromTiles` (on a valid record
set), `addTileToTree` (on a well-formed tree and a valid record), or
`removeTilesFromTree` (on a well-formed tree) satisfies the invariant: at
every level sibling nodes are in strictly ascending numeric order of their
own coordinate segment, and no non-leaf `z` or `(z,x)` node has zero
children (so an emptied node is pruned rather than left childless). -/
theorem C4_tree_invariants :
    (∀ R : List TileData, validRecords R → Inv (buildTreeFromTiles R)) ∧
    (∀ (T : List TreeNode) (r : TileData), WF T → validTile r = true →
      Inv (addTileToTree T r)) ∧
    (∀ (T : List TreeNode) (R : List TileData), WF T →
      Inv (removeTilesFromTree T R)) :=
  ⟨fun _ hv => WF_Inv (build_spec hv).1,
   fun _ _ hT hr => WF_Inv (insert_spec hT hr).1,
   fun _ R hT => WF_Inv (removeMany_spec R _ hT).1⟩

/-- Witness for C4 at concrete data: the build of two valid records (with
z values 9 and 10), one insertion, and one removal all satisfy the
invariant. -/
theorem C4_tree_invariants_witness :
    validRecords
      [⟨"a", "9-1-2", "9", "1", "2"⟩, ⟨"b", "10-1-2", "10", "1", "2"⟩] ∧
    Inv (buildTreeFromTiles
      [⟨"a", "9-1-2", "9", "1", "2"⟩, ⟨"b", "10-1-2", "10", "1", "2"⟩]) ∧
    Inv (addTileToTree
      (buildTreeFromTiles
        [⟨"a", "9-1-2", "9", "1", "2"⟩, ⟨"b", "10-1-2", "10", "1", "2"⟩])
      ⟨"c", "9-1-3", "9", "1", "3"⟩) ∧
    Inv (removeTilesFromTree
      (buildTreeFromTiles
        [⟨"a", "9-1-2", "9", "1", "2"⟩, ⟨"b", "10-1-2", "10", "1", "2"⟩])
      [⟨"a", "9-1-2", "9", "1", "2"⟩]) :=
  ⟨by decide, C4_tree_invariants.1 _ (by decide),
   C4_tree_invariants.2.1 _ _ (by decide) (by decide),
   C4_tree_invariants.2.2 _ _ (by decide)⟩

/-- Claim C5: inserting a record into a well-formed tree twice yields the
same tree as inserting it once — an insertion whose coordinate is already
present is a no-op and never duplicates a leaf. -/
theorem C5_insert_idempotent {T : List TreeNode} {r : TileData}
    (h : WF T) (hr : validTile r = true) :
    addTileToTree (addTileToTree T r) r = addTileToTree T r := by
  obtain ⟨h1, h2⟩ := insert_spec h hr
  obtain ⟨h3, h4⟩ := insert_spec h1 hr
  have hc : hasCoord (addTileToTree T r) r := by
    by_cases hcT : hasCoord T r
    · rw [if_pos hcT] at h2
      obtain ⟨q0, hq0, hq0c⟩ := hcT
      exact ⟨q0, h2.mem_iff.mpr hq0, hq0c⟩
    · rw [if_neg hcT] at h2
      exact ⟨r, h2.mem_iff.mpr (List.mem_append.mpr (Or.inr
        (List.mem_singleton_self r))), rfl⟩
  rw [if_pos hc] at h4
  exact wf_ext h3 h1 (fun q => h4.mem_iff)

/-- Witness for C5 at concrete data: double insertion of one record equals
single insertion. -/
theorem C5_insert_idempotent_witness :
    WF (buildTreeFromTiles [⟨"a", "9-1-2", "9", "1", "2"⟩]) ∧
    validTile ⟨"c", "9-1-3", "9", "1", "3"⟩ = true ∧
    addTileToTree
        (addTileToTree (buildTreeFromTiles [⟨"a", "9-1-2", "9", "1", "2"⟩])
          ⟨"c", "9-1-3", "9", "1", "3"⟩)
        ⟨"c", "9-1-3", "9", "1", "3"⟩ =
      addTileToTree (buildTreeFromTiles [⟨"a", "9-1-2", "9", "1", "2"⟩])
        ⟨"c", "9-1-3", "9", "1", "3"⟩ :=
  ⟨by decide, by decide, C5_insert_idempotent (by decide) (by decide)⟩

/-- Claim C6: round trip — removing every record of a valid record set from
the tree built from it yields the empty tree, and folding the insert
operation over the records starting from the empty tree equals building the
tree directly. -/
theorem C6_round_trip {R : List TileData} (hv : validRecords R) :
    removeTilesFromTree (buildTreeFromTiles R) R = [] ∧
      R.foldl addTileToTree [] = buildTreeFromTiles R := by
  obtain ⟨hbwf, hbrec⟩ := build_spec hv
  obtain ⟨hrwf, hrsub⟩ := removeMany_spec R (buildTreeFromTiles R) hbwf
  constructor
  · refine wf_empty_of_records hrwf ?_
    rw [List.eq_nil_iff_forall_not_mem]
    intro q hq
    obtain ⟨hqT, hqne⟩ := hrsub q hq
    exact hqne q (hbrec.mem_iff.mp hqT) rfl
  · have hwfnil : WF ([] : List TreeNode) :=
      ⟨fun z hz => absurd hz (List.not_mem_nil z), List.Pairwise.nil⟩
    obtain ⟨hfwf, hfrec⟩ := foldl_insert_spec R [] hwfnil hv.1
      (by simpa [recordsOf] using hv.2)
    have h5 : (recordsOf (R.foldl addTileToTree [])).Perm R := by
      simpa [recordsOf] using hfrec
    exact wf_ext hfwf hbwf (fun q => h5.mem_iff.trans hbrec.mem_iff.symm)

/-- Witness for C6 at concrete data: build-then-remove-all empties the
tree, and iterated insert equals direct build. -/
theorem C6_round_trip_witness :
    validRecords
      [⟨"a", "9-1-2", "9", "1", "2"⟩, ⟨"b", "10-1-2", "10", "1", "2"⟩] ∧
    (removeTilesFromTree
        (buildTreeFromTiles
          [⟨"a", "9-1-2", "9", "1", "2"⟩, ⟨"b", "10-1-2", "10", "1", "2"⟩])
        [⟨"a", "9-1-2", "9", "1", "2"⟩, ⟨"b", "10-1-2", "10", "1", "2"⟩] =
        [] ∧
      [(⟨"a", "9-1-2", "9", "1", "2"⟩ : TileData),
          ⟨"b", "10-1-2", "10", "1", "2"⟩].foldl addTileToTree [] =
        buildTreeFromTiles
          [⟨"a", "9-1-2", "9", "1", "2"⟩, ⟨"b", "10-1-2", "10", "1", "2"⟩]) :=
  ⟨by decide, C6_round_trip (by decide)⟩

end Tiles
